import Mathlib

/-!
Verification of the buffered I/O core of the ReplitDeno repository.

The development shallowly embeds the vendored Deno std modules found in the
repository sources:

* `bytes/mod.ts` (the file `src/unnamed/part_000`): pure byte-slice utilities
  (`copy`, `startsWith`, `endsWith`, `repeat`, `concat`);
* `io/bufio.ts` (the file
  `src/.deno/gen/https/deno.land/6b53dbda...8.js`): `BufReader`, `BufWriter`,
  `BufWriterSync`, `createLPS` and `readDelim`.

Byte arrays (`Uint8Array`) are embedded as `List Nat`; an out-of-range read
`a[i]` — which yields `undefined` in JavaScript, a value unequal to every
byte — is embedded as an `Option Nat` access, with `none` playing the role of
`undefined`.  Loops without a structural termination argument take an explicit
fuel argument; returning `none` models divergence of the original loop.
JavaScript numbers are treated as exact integers (the cases where the claims
are evaluated never approach 2^53, where that reading would break down).
-/

namespace DenoStd

/-- Element access that mirrors a JavaScript typed-array read at a possibly
negative index: `a[i]` is `undefined` (here `none`) when `i < 0` or
`i ≥ a.length`. -/
def getAt (l : List Nat) (i : Int) : Option Nat :=
  if i < 0 then none else l[i.toNat]?

/-- Embedding of `copy(src, dst, off)` from `bytes/mod.ts`: clamps `off` into
`[0, dst.length]`, copies `min(src.length, dst.length - off)` bytes of `src`
into `dst` at `off`, and returns the number of bytes copied together with the
updated destination. -/
def copyFn (src dst : List Nat) (off : Nat) : Nat × List Nat :=
  let off2 := min off dst.length
  let src2 := src.take (dst.length - off2)
  (src2.length, dst.take off2 ++ src2 ++ dst.drop (off2 + src2.length))

/-- Embedding of a typed-array `dst.set(src, off)` where the caller guarantees
the write fits: overwrite `dst[off .. off+src.length)` with `src`. -/
def setChunk (dst : List Nat) (off : Nat) (src : List Nat) : List Nat :=
  dst.take off ++ src ++ dst.drop (off + src.length)

/-- Embedding of `subarray.indexOf(byte)`: index of the first occurrence of
`b` in `l`, if any. -/
def byteIndexOf (l : List Nat) (b : Nat) : Option Nat :=
  match l with
  | [] => none
  | x :: xs => if x = b then some 0 else (byteIndexOf xs b).map (· + 1)

/-- Embedding of `startsWith(source, prefix)` from `bytes/mod.ts`: for each
`i < prefix.length` the loop compares `source[i] !== prefix[i]` with no bounds
check on `source`; an out-of-range read is `undefined` and compares unequal to
every byte. -/
def startsWith (source pre : List Nat) : Bool :=
  (List.range pre.length).all fun i => source[i]? == pre[i]?

/-- Embedding of `endsWith(source, suffix)` from `bytes/mod.ts`: the loop walks
`srci` from `source.length - 1` and `sfxi` from `suffix.length - 1` down while
`sfxi ≥ 0`, comparing `source[srci] !== suffix[sfxi]` with no bounds check;
`srci` may run below zero, where the read yields `undefined`. -/
def endsWith (source sfx : List Nat) : Bool :=
  (List.range sfx.length).all fun k =>
    getAt source ((source.length : Int) - 1 - (k : Int)) ==
      getAt sfx ((sfx.length : Int) - 1 - (k : Int))

theorem getAt_neg (l : List Nat) (i : Int) (h : i < 0) : getAt l i = none := by
  simp [getAt, h]

theorem getAt_ofNat (l : List Nat) (n : Nat) : getAt l (n : Int) = l[n]? := by
  simp [getAt]

/-- C9: for every source array and every non-empty affix longer than the
source, `startsWith` and `endsWith` return `false`: the out-of-bounds access
into the shorter source yields the `undefined` sentinel, which is unequal to
any real byte, so the unchecked comparison is a mismatch and no false positive
is possible. -/
theorem startsWith_endsWith_short_source (source affix : List Nat)
    (h : source.length < affix.length) :
    startsWith source affix = false ∧ endsWith source affix = false := by
  constructor
  · have hmem : source.length ∈ List.range affix.length := List.mem_range.mpr h
    rw [startsWith, List.all_eq_false]
    refine ⟨source.length, hmem, ?_⟩
    have h1 : source[source.length]? = none := List.getElem?_eq_none (le_refl _)
    have h2 : affix[source.length]? = some (affix.get ⟨source.length, h⟩) :=
      List.getElem?_eq_getElem h
    rw [h1, h2]
    simp
  · have hmem : source.length ∈ List.range affix.length := List.mem_range.mpr h
    rw [endsWith, List.all_eq_false]
    refine ⟨source.length, hmem, ?_⟩
    have h1 : getAt source ((source.length : Int) - 1 - (source.length : Int)) = none := by
      apply getAt_neg; omega
    have hidx : ((affix.length : Int) - 1 - (source.length : Int)) =
        ((affix.length - 1 - source.length : Nat) : Int) := by omega
    have hlt : affix.length - 1 - source.length < affix.length := by omega
    have h2 : getAt affix ((affix.length : Int) - 1 - (source.length : Int)) =
        some (affix.get ⟨affix.length - 1 - source.length, hlt⟩) := by
      rw [hidx, getAt_ofNat]
      exact List.getElem?_eq_getElem hlt
    rw [h1, h2]
    simp

/-- Witness for C9 at `source = [1]`, `affix = [1, 2]`. -/
theorem startsWith_endsWith_short_source_witness :
    ([1] : List Nat).length < ([1, 2] : List Nat).length ∧
      (startsWith [1] [1, 2] = false ∧ endsWith [1] [1, 2] = false) :=
  ⟨by decide, startsWith_endsWith_short_source [1] [1, 2] (by decide)⟩

/-- Embedding of the doubling loop of `repeat` from `bytes/mod.ts`:
`for (; bp < nb.length; bp *= 2) copy(nb.slice(0, bp), nb, bp);`.
The loop is driven by fuel; `repeat` always supplies enough fuel for its own
call sites (the source never enters the loop with `bp = 0`, the only way the
original loop could fail to make progress). -/
def dblLoop : Nat → List Nat → Nat → List Nat
  | 0, nb, _ => nb
  | fuel + 1, nb, bp =>
    if bp < nb.length then
      dblLoop fuel (copyFn (nb.take bp) nb bp).2 (bp * 2)
    else nb

/-- Embedding of `repeat(origin, count)` from `bytes/mod.ts` for a
non-negative integer `count` (the negative, non-integer and floating-overflow
guards of the source cannot fire for a `Nat` count): allocate
`origin.length * count` zero bytes, copy `origin` once, then double the
initialized prefix until the buffer is full. -/
def repeatBytes (origin : List Nat) (count : Nat) : List Nat :=
  if count = 0 then []
  else
    let nb := List.replicate (origin.length * count) 0
    let p := copyFn origin nb 0
    dblLoop (p.2.length + 1) p.2 p.1

/-- Embedding of `concat(...buf)` from `bytes/mod.ts`: allocate the sum of the
lengths and `set` each input at its running offset. -/
def concat (bufs : List (List Nat)) : List Nat :=
  (bufs.foldl (fun acc b => (setChunk acc.1 acc.2 b, acc.2 + b.length))
    (List.replicate ((bufs.map List.length).sum) 0, 0)).1

theorem length_flatten_replicate (n : Nat) (x : List Nat) :
    (List.replicate n x).flatten.length = n * x.length := by
  induction n with
  | zero => simp
  | succ k ih => simp [List.replicate_succ, ih, Nat.succ_mul]; ring

theorem flatten_replicate_nil (n : Nat) :
    (List.replicate n ([] : List Nat)).flatten = [] := by
  induction n with
  | zero => rfl
  | succ k ih => simp [List.replicate_succ, ih]

theorem take_flatten_replicate (j : Nat) :
    ∀ (k : Nat) (x : List Nat), j ≤ k →
      ((List.replicate k x).flatten).take (x.length * j) =
        (List.replicate j x).flatten := by
  induction j with
  | zero => intro k x _; simp
  | succ i ih =>
    intro k x hk
    obtain ⟨k2, rfl⟩ : ∃ k2, k = k2 + 1 := ⟨k - 1, by omega⟩
    have hik : i ≤ k2 := by omega
    rw [List.replicate_succ, List.replicate_succ, List.flatten_cons, List.flatten_cons]
    have hmul : x.length * (i + 1) = x.length + x.length * i := by ring
    rw [hmul, List.take_append_eq_append_take]
    have h1 : x.take (x.length + x.length * i) = x :=
      List.take_of_length_le (by omega)
    have h2 : x.length + x.length * i - x.length = x.length * i := by omega
    rw [h1, h2, ih k2 x hik]

theorem drop_flatten_replicate (j : Nat) :
    ∀ (k : Nat) (x : List Nat), j ≤ k →
      ((List.replicate k x).flatten).drop (x.length * j) =
        (List.replicate (k - j) x).flatten := by
  induction j with
  | zero => intro k x _; simp
  | succ i ih =>
    intro k x hk
    obtain ⟨k2, rfl⟩ : ∃ k2, k = k2 + 1 := ⟨k - 1, by omega⟩
    have hik : i ≤ k2 := by omega
    rw [List.replicate_succ, List.flatten_cons]
    have hmul : x.length * (i + 1) = x.length + x.length * i := by ring
    rw [hmul, List.drop_append_eq_append_drop]
    have h1 : x.drop (x.length + x.length * i) = [] := by
      apply List.drop_eq_nil_of_le; omega
    have h2 : x.length + x.length * i - x.length = x.length * i := by omega
    rw [h1, h2, ih k2 x hik]
    simp

theorem dblLoop_of_ge (fuel : Nat) (nb : List Nat) (bp : Nat)
    (h : nb.length ≤ bp) : dblLoop fuel nb bp = nb := by
  cases fuel with
  | zero => rfl
  | succ f => rw [dblLoop, if_neg (by omega)]

theorem dblLoop_eq (fuel : Nat) :
    ∀ (x : List Nat) (count : Nat) (nb : List Nat) (bp j : Nat),
      1 ≤ x.length → bp = x.length * j → 1 ≤ j →
      nb.length = (List.replicate count x).flatten.length →
      nb.take (min bp nb.length) =
        (List.replicate count x).flatten.take (min bp nb.length) →
      (List.replicate count x).flatten.length ≤ bp * 2 ^ fuel →
      dblLoop fuel nb bp = (List.replicate count x).flatten := by
  induction fuel with
  | zero =>
    intro x count nb bp j hL hbp hj hlen hpre hfuel
    have h1 : (List.replicate count x).flatten.length ≤ bp := by simpa using hfuel
    have hmin : min bp nb.length = nb.length := by omega
    rw [dblLoop]
    rw [hmin, List.take_length] at hpre
    rw [hpre, hlen, List.take_length]
  | succ f ih =>
    intro x count nb bp j hL hbp hj hlen hpre hfuel
    set R := (List.replicate count x).flatten with hR
    by_cases hguard : bp < nb.length
    · have htot : R.length = count * x.length := length_flatten_replicate count x
      have hjc : j < count := by
        have hlt : x.length * j < x.length * count := by
          rw [← hbp, Nat.mul_comm x.length count, ← htot, ← hlen]; exact hguard
        exact Nat.lt_of_mul_lt_mul_left hlt
      have hminbp : min bp nb.length = bp := by omega
      rw [hminbp] at hpre
      have hnbtake : nb.take bp = R.take bp := hpre
      have hRtakelen : (R.take bp).length = bp := by
        rw [List.length_take]; omega
      rw [dblLoop, if_pos hguard]
      have hnb2 : (copyFn (nb.take bp) nb bp).2 =
          R.take bp ++ (R.take bp).take (nb.length - bp) ++
            nb.drop (bp + ((R.take bp).take (nb.length - bp)).length) := by
        simp only [copyFn, hminbp, hnbtake]
      by_cases hc : bp * 2 ≤ nb.length
      · have hsrc : (R.take bp).take (nb.length - bp) = R.take bp := by
          apply List.take_of_length_le; omega
        rw [hsrc, hRtakelen] at hnb2
        have hnb2len : ((copyFn (nb.take bp) nb bp).2).length = nb.length := by
          rw [hnb2]; simp [hRtakelen]; omega
        have hbp2 : bp * 2 = x.length * (j * 2) := by rw [hbp]; ring
        have h2jc : j * 2 ≤ count := by
          have h2 : x.length * (j * 2) ≤ x.length * count := by
            rw [← hbp2]
            calc bp * 2 ≤ nb.length := hc
              _ = x.length * count := by rw [hlen, htot]; ring
          exact Nat.le_of_mul_le_mul_left h2 (by omega)
        have hkey : R.take (bp * 2) = R.take bp ++ R.take bp := by
          rw [hbp2, hbp, hR, take_flatten_replicate (j * 2) count x h2jc,
            take_flatten_replicate j count x (by omega)]
          have : List.replicate (j * 2) x =
              List.replicate j x ++ List.replicate j x := by
            rw [← List.replicate_add]; congr 1; ring
          rw [this, List.flatten_append]
        have hA : (R.take bp ++ R.take bp ++ nb.drop (bp + bp)).take (bp * 2) =
            R.take bp ++ R.take bp := by
          rw [List.take_append_eq_append_take]
          have hl : (R.take bp ++ R.take bp).length = bp + bp := by
            rw [List.length_append, hRtakelen]
          rw [List.take_of_length_le (show (R.take bp ++ R.take bp).length ≤ bp * 2 by omega)]
          have hz : bp * 2 - (R.take bp ++ R.take bp).length = 0 := by omega
          rw [hz, List.take_zero, List.append_nil]
        have hpre2 : ((copyFn (nb.take bp) nb bp).2).take
              (min (bp * 2) ((copyFn (nb.take bp) nb bp).2).length) =
            R.take (min (bp * 2) ((copyFn (nb.take bp) nb bp).2).length) := by
          rw [hnb2len]
          have hmin2 : min (bp * 2) nb.length = bp * 2 := by omega
          rw [hmin2, hkey, hnb2, hA]
        refine ih x count _ (bp * 2) (j * 2) hL hbp2 (by omega) (by rw [hnb2len, hlen]) hpre2 ?_
        calc R.length ≤ bp * 2 ^ (f + 1) := hfuel
          _ = bp * 2 * 2 ^ f := by ring
      · have hsrc : (R.take bp).take (nb.length - bp) = R.take (nb.length - bp) := by
          rw [List.take_take]
          congr 1
          omega
        rw [hsrc] at hnb2
        have hsrclen : (R.take (nb.length - bp)).length = nb.length - bp := by
          rw [List.length_take]; omega
        rw [hsrclen] at hnb2
        have hdropnil : nb.drop (bp + (nb.length - bp)) = [] := by
          apply List.drop_eq_nil_of_le; omega
        rw [hdropnil, List.append_nil] at hnb2
        have hTbp : nb.length - bp = x.length * (count - j) := by
          rw [hlen, htot, hbp, Nat.mul_comm count x.length, ← Nat.mul_sub]
        have hdropR : R.drop bp = R.take (nb.length - bp) := by
          have hd1 : R.drop bp = (List.replicate (count - j) x).flatten := by
            rw [hR, hbp]; exact drop_flatten_replicate j count x (by omega)
          have hd2 : R.take (nb.length - bp) = (List.replicate (count - j) x).flatten := by
            rw [hTbp, hR]; exact take_flatten_replicate (count - j) count x (by omega)
          rw [hd1, hd2]
        have hnb2R : (copyFn (nb.take bp) nb bp).2 = R := by
          rw [hnb2, ← hdropR, List.take_append_drop]
        rw [hnb2R]
        exact dblLoop_of_ge f R (bp * 2) (by omega)
    · rw [dblLoop_of_ge (f + 1) nb bp (by omega)]
      have hmin : min bp nb.length = nb.length := by omega
      rw [hmin, List.take_length] at hpre
      rw [hpre, hlen, List.take_length]

theorem repeatBytes_eq_flatten (x : List Nat) (count : Nat) :
    repeatBytes x count = (List.replicate count x).flatten := by
  rcases Nat.eq_zero_or_pos count with h0 | hpos
  · subst h0; simp [repeatBytes]
  · have hrb : repeatBytes x count =
        dblLoop ((copyFn x (List.replicate (x.length * count) 0) 0).2.length + 1)
          (copyFn x (List.replicate (x.length * count) 0) 0).2
          (copyFn x (List.replicate (x.length * count) 0) 0).1 := by
      rw [repeatBytes, if_neg (by omega)]
    rw [hrb]
    rcases Nat.eq_zero_or_pos x.length with hx | hL
    · have hxnil : x = [] := List.length_eq_zero.mp hx
      subst hxnil
      simp [copyFn, dblLoop, flatten_replicate_nil]
    · have hle : x.length ≤ x.length * count := by
        calc x.length = x.length * 1 := by ring
          _ ≤ x.length * count := Nat.mul_le_mul_left _ hpos
      have hcopy : copyFn x (List.replicate (x.length * count) (0 : Nat)) 0 =
          (x.length, x ++ List.replicate (x.length * count - x.length) 0) := by
        simp only [copyFn, List.length_replicate, Nat.zero_min, Nat.sub_zero,
          List.take_zero, List.nil_append, Nat.zero_add]
        rw [List.take_of_length_le (by simpa using hle), List.drop_replicate]
      rw [hcopy]
      have hlen2 : (x ++ List.replicate (x.length * count - x.length) (0 : Nat)).length =
          (List.replicate count x).flatten.length := by
        rw [List.length_append, List.length_replicate, length_flatten_replicate]
        have : count * x.length = x.length * count := by ring
        omega
      apply dblLoop_eq _ x count _ x.length 1 hL (by ring) (le_refl 1) hlen2
      · have hmin : min x.length
            (x ++ List.replicate (x.length * count - x.length) (0 : Nat)).length =
            x.length := by
          rw [List.length_append, List.length_replicate]; omega
        rw [hmin]
        have h1 : (x ++ List.replicate (x.length * count - x.length) (0 : Nat)).take x.length
            = x := by
          rw [List.take_append_eq_append_take, List.take_of_length_le (le_refl _ : x.length ≤ x.length)]
          simp
        have h2 : (List.replicate count x).flatten.take x.length = x := by
          have := take_flatten_replicate 1 count x hpos
          simpa using this
        rw [h1, h2]
      · have hflat : (List.replicate count x).flatten.length = x.length * count := by
          rw [length_flatten_replicate]; ring
        have hn : (x ++ List.replicate (x.length * count - x.length) (0 : Nat)).length =
            x.length * count := by
          rw [List.length_append, List.length_replicate]; omega
        rw [hflat, hn]
        have h1 : x.length * count < 2 ^ (x.length * count) := Nat.lt_two_pow _
        have h2 : (2 : Nat) ^ (x.length * count) ≤ 2 ^ (x.length * count + 1) :=
          Nat.pow_le_pow_right (by omega) (by omega)
        have h3 : (2 : Nat) ^ (x.length * count + 1) ≤
            x.length * 2 ^ (x.length * count + 1) := by
          calc (2 : Nat) ^ (x.length * count + 1)
              = 1 * 2 ^ (x.length * count + 1) := by ring
            _ ≤ x.length * 2 ^ (x.length * count + 1) := Nat.mul_le_mul_right _ hL
        omega

theorem concat_loop_eq (bufs : List (List Nat)) :
    ∀ pre : List Nat,
      (bufs.foldl (fun acc b => (setChunk acc.1 acc.2 b, acc.2 + b.length))
        (pre ++ List.replicate ((bufs.map List.length).sum) 0, pre.length)).1 =
        pre ++ bufs.flatten := by
  induction bufs with
  | nil => intro pre; simp
  | cons b rest ih =>
    intro pre
    rw [List.foldl_cons]
    have hsum : ((b :: rest).map List.length).sum =
        b.length + ((rest.map List.length).sum) := by simp
    have hstep : setChunk (pre ++ List.replicate (((b :: rest).map List.length).sum) 0)
        pre.length b =
        (pre ++ b) ++ List.replicate ((rest.map List.length).sum) 0 := by
      rw [hsum, setChunk, List.take_left pre, List.drop_append_eq_append_drop]
      rw [List.drop_eq_nil_of_le (by omega), List.drop_replicate]
      have : pre.length + b.length - pre.length = b.length := by omega
      rw [this]
      have : b.length + (rest.map List.length).sum - b.length =
          (rest.map List.length).sum := by omega
      rw [this]
      simp [List.append_assoc]
    rw [hstep]
    have hlen : pre.length + b.length = (pre ++ b).length := by simp
    rw [hlen]
    rw [ih (pre ++ b)]
    simp

theorem concat_eq_flatten (bufs : List (List Nat)) : concat bufs = bufs.flatten := by
  have h := concat_loop_eq bufs []
  simpa [concat] using h

/-- C8: `repeat(x, 0)` returns an empty buffer even for non-empty `x`, and
`repeat(x, 3)` equals `concat(x, x, x)`; in general `repeat(x, count)` has
length `x.length * count` and consists of `count` concatenated copies of `x`,
despite being built by doubling a running prefix. -/
theorem repeat_returns_count_copies (x : List Nat) (count : Nat) :
    repeatBytes x 0 = [] ∧
    repeatBytes x 3 = concat [x, x, x] ∧
    (repeatBytes x count).length = x.length * count ∧
    repeatBytes x count = (List.replicate count x).flatten := by
  refine ⟨rfl, ?_, ?_, repeatBytes_eq_flatten x count⟩
  · rw [repeatBytes_eq_flatten, concat_eq_flatten]
    rfl
  · rw [repeatBytes_eq_flatten, length_flatten_replicate, Nat.mul_comm]

/-- Embedding of the loop of `createLPS(pat)` from `bufio.ts`.  `pe` models the
JavaScript variable `prefixEnd`; the fallback branch of the source reads
`prefixEnd = pat[prefixEnd - 1]` (from `pat`, not from `lps`), which can drive
`prefixEnd` out of `pat`'s range; an out-of-range read yields `undefined`,
modelled by `none`, which then propagates through the loop.  The loop has no
termination guarantee, so it is driven by fuel, with `none` modelling
divergence.  The `(p + 1) % 256` store models the `Uint8Array` write.  The
inner `none` arm is unreachable from `createLPS`, where `lps` and `pat` have
equal length, so a match there forces `pe` to be a valid index. -/
def createLPSLoop : Nat → List Nat → List Nat → Option Nat → Nat → Option (List Nat)
  | 0, _, _, _, _ => none
  | fuel + 1, pat, lps, pe, i =>
    if i < lps.length then
      if pat[i]? == pe.bind fun p => pat[p]? then
        match pe with
        | some p => createLPSLoop fuel pat (lps.set i ((p + 1) % 256)) (some (p + 1)) (i + 1)
        | none => none
      else if pe == some 0 then
        createLPSLoop fuel pat (lps.set i 0) pe (i + 1)
      else
        createLPSLoop fuel pat lps (pe.bind fun p => pat[p - 1]?) i
    else some lps

/-- Embedding of `createLPS(pat)` from `bufio.ts`: allocate a zeroed table of
`pat`'s length, store `lps[0] = 0`, and run the loop from `prefixEnd = 0`,
`i = 1`. -/
def createLPS (fuel : Nat) (pat : List Nat) : Option (List Nat) :=
  createLPSLoop fuel pat ((List.replicate pat.length 0).set 0 0) (some 0) 1

/-- Whether `pat.take k` (a prefix of the pattern) is a suffix of
`pat[0..i]`. -/
def isPS (pat : List Nat) (i k : Nat) : Bool :=
  decide (pat.take k = (pat.take (i + 1)).drop (i + 1 - k))

/-- The length of the longest proper prefix of `pat` that is also a suffix of
`pat[0..i]` — what entry `i` of a correct LPS table holds. -/
def lpsEntry (pat : List Nat) (i : Nat) : Nat :=
  ((List.range (i + 1)).filter (fun k => isPS pat i k)).foldl max 0

/-- C2 (code bug): `createLPS` does **not** compute the LPS table for every
non-empty pattern, and does not even terminate on all of them.  On the pattern
`[1, 1, 0]` the loop reaches the state `prefixEnd = 1, i = 2` and the buggy
fallback `prefixEnd = pat[prefixEnd - 1]` reproduces that exact state, so no
amount of fuel completes the loop.  On `[2, 2, 1]` the loop terminates but
stores `3` at index `2`, whereas the longest proper prefix of `[2, 2, 1]` that
is also a suffix of `[2, 2, 1]` has length `0` (a correct table would end
`[0, 1, 0]`). -/
theorem createLPS_lps_table :
    (∀ fuel, createLPS fuel [1, 1, 0] = none) ∧
    createLPS 10 [2, 2, 1] = some [0, 1, 3] ∧
    lpsEntry [2, 2, 1] 2 = 0 := by
  have hstuck : ∀ f, createLPSLoop f [1, 1, 0] [0, 1, 0] (some 1) 2 = none := by
    intro f
    induction f with
    | zero => rfl
    | succ g ih =>
      have hstep : createLPSLoop (g + 1) [1, 1, 0] [0, 1, 0] (some 1) 2 =
          createLPSLoop g [1, 1, 0] [0, 1, 0] (some 1) 2 := rfl
      rw [hstep]; exact ih
  refine ⟨?_, by decide, by decide⟩
  intro fuel
  cases fuel with
  | zero => rfl
  | succ f =>
    have hstep : createLPS (f + 1) [1, 1, 0] =
        createLPSLoop f [1, 1, 0] [0, 1, 0] (some 1) 2 := rfl
    rw [hstep]; exact hstuck f

/-- An abstract byte sink (spec section 6).  The environment is an oracle
mapping the call index and the length of the buffer handed over to either a
thrown error (identified by a number) or the count of bytes the sink claims to
accept. -/
structure WSink where
  f : Nat → Nat → Except Nat Nat

/-- Observable state of a sink: how many times its write operation has run and
the bytes it has received so far (a sink that accepts `n` bytes receives the
first `n` bytes of the buffer handed to it). -/
structure WSinkSt where
  calls : Nat
  received : List Nat
deriving DecidableEq

/-- One call of the sink's write operation. -/
def sinkWrite (sk : WSink) (st : WSinkSt) (data : List Nat) : Except Nat Nat × WSinkSt :=
  match sk.f st.calls data.length with
  | .error e => (.error e, ⟨st.calls + 1, st.received⟩)
  | .ok n => (.ok n, ⟨st.calls + 1, st.received ++ data.take n⟩)

/-- Modelled from the spec: the external `writeAll` helper used by `flush`
(`io/util.ts` is not among the repository sources); the spec says `flush`
"writes the buffered region to the sink in one logical operation (which may
itself be decomposed into multiple underlying writes by an external
write-all helper)".  The helper repeatedly hands the unwritten suffix to the
sink until every byte is accepted.  Fuel bounds the number of sink calls —
always sufficient for a sink that accepts at least one byte per call — and
`none` models divergence. -/
def writeAllLoop (sk : WSink) : Nat → WSinkSt → List Nat → Option (Except Nat Unit × WSinkSt)
  | 0, st, arr => if arr.length = 0 then some (.ok (), st) else none
  | fuel + 1, st, arr =>
    if arr.length = 0 then some (.ok (), st)
    else
      match sinkWrite sk st arr with
      | (.error e, st2) => some (.error e, st2)
      | (.ok n, st2) => writeAllLoop sk fuel st2 (arr.drop n)

/-- State of a `BufWriter` (and of the structurally identical
`BufWriterSync`): the internal buffer, the used-byte count, the latched error
`err`, and the bound sink's observable state. -/
structure BWSt where
  buf : List Nat
  used : Nat
  err : Option Nat
  sink : WSinkSt
deriving DecidableEq

/-- Embedding of `BufWriter.flush`: fail fast on a latched error, do nothing
when the buffer is empty, otherwise write the buffered region via `writeAll`
(given fuel `used + 1`), latching and rethrowing any sink error, and on
success replace the buffer with a fresh zeroed one and reset the count. -/
def BufWriter_flush (sk : WSink) (w : BWSt) : Option (Except Nat Unit × BWSt) :=
  match w.err with
  | some e => some (.error e, w)
  | none =>
    if w.used = 0 then some (.ok (), w)
    else
      match writeAllLoop sk (w.used + 1) w.sink (w.buf.take w.used) with
      | none => none
      | some (.error e, ssk) => some (.error e, { w with err := some e, sink := ssk })
      | some (.ok _, ssk) =>
        some (.ok (), { w with buf := List.replicate w.buf.length 0, used := 0, sink := ssk })

/-- Embedding of the `while (data.byteLength > this.available())` loop of
`BufWriter.write`, with `total` accumulating `totalBytesWritten`.  Fuel bounds
the iterations (`write` supplies `data.length + 2`, sufficient whenever the
sink accepts at least one byte per call); `none` models divergence. -/
def writeLoop (sk : WSink) : Nat → BWSt → List Nat → Nat → Option (Except Nat Nat × BWSt)
  | 0, _, _, _ => none
  | fuel + 1, w, data, total =>
    if w.buf.length - w.used < data.length then
      if w.used = 0 then
        match sinkWrite sk w.sink data with
        | (.error e, ssk) => some (.error e, { w with err := some e, sink := ssk })
        | (.ok n, ssk) => writeLoop sk fuel { w with sink := ssk } (data.drop n) (total + n)
      else
        match copyFn data w.buf w.used with
        | (n, buf2) =>
          match BufWriter_flush sk { w with buf := buf2, used := w.used + n } with
          | none => none
          | some (.error e, w3) => some (.error e, w3)
          | some (.ok _, w3) => writeLoop sk fuel w3 (data.drop n) (total + n)
    else
      match copyFn data w.buf w.used with
      | (n, buf2) => some (.ok (total + n), { w with buf := buf2, used := w.used + n })

/-- Embedding of `BufWriter.write`: fail fast on a latched error, return 0 for
empty input, otherwise run the loop and the final copy. -/
def BufWriter_write (sk : WSink) (w : BWSt) (data : List Nat) :
    Option (Except Nat Nat × BWSt) :=
  match w.err with
  | some e => some (.error e, w)
  | none =>
    if data.length = 0 then some (.ok 0, w)
    else writeLoop sk (data.length + 2) w data 0

/-- Embedding of `BufWriter.reset(w)`: clear the error and the used count and
rebind to a new sink, without flushing. -/
def BufWriter_reset (w : BWSt) (newSink : WSinkSt) : BWSt :=
  { w with err := none, used := 0, sink := newSink }

/-- `BufWriterSync.writeSync`: its source is identical to `BufWriter.write`
except that the sink call is synchronous, a distinction the embedding does not
make. -/
def BufWriterSync_writeSync (sk : WSink) (w : BWSt) (data : List Nat) :
    Option (Except Nat Nat × BWSt) :=
  BufWriter_write sk w data

/-- `BufWriterSync.flush`: source-identical to `BufWriter.flush` modulo the
synchronous `writeAllSync` helper. -/
def BufWriterSync_flush (sk : WSink) (w : BWSt) : Option (Except Nat Unit × BWSt) :=
  BufWriter_flush sk w

/-- `BufWriterSync.reset`: source-identical to `BufWriter.reset`. -/
def BufWriterSync_reset (w : BWSt) (newSink : WSinkSt) : BWSt :=
  BufWriter_reset w newSink

/-- Driver for the round-trip scenario: perform `write(b)` for each buffer in
turn (collecting the returned counts), then `flush()`. -/
def runWrites (sk : WSink) :
    BWSt → List (List Nat) → List Nat → Option (Except Nat (List Nat) × BWSt)
  | w, [], acc =>
    match BufWriter_flush sk w with
    | none => none
    | some (.error e, w2) => some (.error e, w2)
    | some (.ok _, w2) => some (.ok acc, w2)
  | w, b :: bs, acc =>
    match BufWriter_write sk w b with
    | none => none
    | some (.error e, w2) => some (.error e, w2)
    | some (.ok n, w2) => runWrites sk w2 bs (acc ++ [n])

/-- A sink write operation that, each time it is handed a non-empty buffer,
accepts at least one byte and at most the length of that buffer, and never
throws. -/
def Accepting (f : Nat → Nat → Except Nat Nat) : Prop :=
  ∀ k len, 1 ≤ len → ∃ n, f k len = .ok n ∧ 1 ≤ n ∧ n ≤ len

theorem writeAllLoop_ok (sk : WSink) (hf : Accepting sk.f) :
    ∀ (fuel : Nat) (arr : List Nat) (st : WSinkSt), arr.length < fuel →
      ∃ c, writeAllLoop sk fuel st arr = some (.ok (), ⟨c, st.received ++ arr⟩) := by
  intro fuel
  induction fuel with
  | zero => intro arr st h; omega
  | succ f ih =>
    intro arr st h
    by_cases ha : arr.length = 0
    · have harr : arr = [] := List.length_eq_zero.mp ha
      subst harr
      exact ⟨st.calls, by simp [writeAllLoop]⟩
    · obtain ⟨n, hfk, hn1, hn2⟩ := hf st.calls arr.length (by omega)
      have hstep : writeAllLoop sk (f + 1) st arr =
          writeAllLoop sk f ⟨st.calls + 1, st.received ++ arr.take n⟩ (arr.drop n) := by
        simp only [writeAllLoop, if_neg ha, sinkWrite, hfk]
      obtain ⟨c, hc⟩ := ih (arr.drop n) ⟨st.calls + 1, st.received ++ arr.take n⟩
        (by rw [List.length_drop]; omega)
      refine ⟨c, ?_⟩
      rw [hstep, hc, List.append_assoc, List.take_append_drop]

theorem BufWriter_flush_ok (sk : WSink) (hf : Accepting sk.f) (w : BWSt)
    (herr : w.err = none) :
    ∃ w2, BufWriter_flush sk w = some (.ok (), w2) ∧ w2.err = none ∧ w2.used = 0 ∧
      w2.buf.length = w.buf.length ∧
      w2.sink.received = w.sink.received ++ w.buf.take w.used := by
  by_cases hu : w.used = 0
  · refine ⟨w, ?_, herr, hu, rfl, by rw [hu]; simp⟩
    rw [BufWriter_flush, herr]
    simp [hu]
  · obtain ⟨c, hc⟩ := writeAllLoop_ok sk hf (w.used + 1) (w.buf.take w.used) w.sink
      (by rw [List.length_take]; omega)
    refine ⟨{ w with buf := List.replicate w.buf.length 0, used := 0, sink := ⟨c, w.sink.received ++ w.buf.take w.used⟩ }, ?_, herr, rfl, by simp, rfl⟩
    rw [BufWriter_flush, herr]
    simp only [if_neg hu, hc]

theorem writeLoop_direct_ok (sk : WSink) (hf : Accepting sk.f) :
    ∀ (fuel : Nat) (data : List Nat) (total : Nat) (w : BWSt),
      w.err = none → w.used = 0 → 1 ≤ w.buf.length → data.length + 1 ≤ fuel →
      ∃ w2, writeLoop sk fuel w data total = some (.ok (total + data.length), w2) ∧
        w2.err = none ∧ w2.buf.length = w.buf.length ∧ w2.used ≤ w2.buf.length ∧
        w2.sink.received ++ w2.buf.take w2.used = w.sink.received ++ data := by
  intro fuel
  induction fuel with
  | zero => intro data total w _ _ _ h; omega
  | succ f ih =>
    intro data total w herr hu hcap h
    by_cases hg : w.buf.length - w.used < data.length
    · have hlen1 : 1 ≤ data.length := by omega
      obtain ⟨n, hfk, hn1, hn2⟩ := hf w.sink.calls data.length hlen1
      have hstep : writeLoop sk (f + 1) w data total =
          writeLoop sk f { w with sink := ⟨w.sink.calls + 1, w.sink.received ++ data.take n⟩ }
            (data.drop n) (total + n) := by
        simp only [writeLoop, if_pos hg, if_pos hu, sinkWrite, hfk]
      obtain ⟨w2, hrun, he2, hb2, hu2, hr2⟩ :=
        ih (data.drop n) (total + n)
          { w with sink := ⟨w.sink.calls + 1, w.sink.received ++ data.take n⟩ }
          herr hu hcap (by rw [List.length_drop]; omega)
      refine ⟨w2, ?_, he2, hb2, hu2, ?_⟩
      · have harith : total + n + (data.drop n).length = total + data.length := by
          rw [List.length_drop]; omega
        rw [hstep, hrun, harith]
      · rw [hr2]
        simp only [List.append_assoc, List.take_append_drop]
    · have hcopy : copyFn data w.buf w.used =
          (data.length, data ++ w.buf.drop data.length) := by
        simp only [copyFn, hu, Nat.zero_min, Nat.sub_zero, List.take_zero,
          List.nil_append, Nat.zero_add]
        rw [List.take_of_length_le (by omega : data.length ≤ w.buf.length)]
      have hstep : writeLoop sk (f + 1) w data total =
          some (.ok (total + data.length),
            { w with buf := data ++ w.buf.drop data.length, used := w.used + data.length }) := by
        simp only [writeLoop, if_neg hg, hcopy]
      refine ⟨{ w with buf := data ++ w.buf.drop data.length, used := w.used + data.length },
        hstep, herr, ?_, ?_, ?_⟩
      · simp only [List.length_append, List.length_drop]; omega
      · simp only [List.length_append, List.length_drop]; omega
      · rw [hu, Nat.zero_add, List.take_left]

theorem writeLoop_ok (sk : WSink) (hf : Accepting sk.f)
    (data : List Nat) (w : BWSt) (total : Nat)
    (herr : w.err = none) (hused : w.used ≤ w.buf.length) (hcap : 1 ≤ w.buf.length) :
    ∃ w2, writeLoop sk (data.length + 2) w data total =
        some (.ok (total + data.length), w2) ∧
      w2.err = none ∧ w2.buf.length = w.buf.length ∧ w2.used ≤ w2.buf.length ∧
      w2.sink.received ++ w2.buf.take w2.used =
        w.sink.received ++ w.buf.take w.used ++ data := by
  by_cases hu : w.used = 0
  · obtain ⟨w2, hrun, he2, hb2, hu2, hr2⟩ :=
      writeLoop_direct_ok sk hf (data.length + 2) data total w herr hu hcap (by omega)
    refine ⟨w2, hrun, he2, hb2, hu2, ?_⟩
    rw [hr2, hu]
    simp
  · by_cases hg : w.buf.length - w.used < data.length
    · have hsrclen : (data.take (w.buf.length - w.used)).length = w.buf.length - w.used := by
        rw [List.length_take]; omega
      have hcopy : copyFn data w.buf w.used =
          (w.buf.length - w.used,
            w.buf.take w.used ++ data.take (w.buf.length - w.used)) := by
        simp only [copyFn, Nat.min_eq_left hused, hsrclen]
        have hidx : w.used + (w.buf.length - w.used) = w.buf.length := by omega
        rw [hidx, List.drop_length, List.append_nil]
      have hnblen : (w.buf.take w.used ++ data.take (w.buf.length - w.used)).length =
          w.buf.length := by
        rw [List.length_append, List.length_take, hsrclen]; omega
      obtain ⟨w3, hflush, he3, hu3, hb3, hr3⟩ := BufWriter_flush_ok sk hf
        { w with buf := w.buf.take w.used ++ data.take (w.buf.length - w.used),
                 used := w.used + (w.buf.length - w.used) } herr
      have hb3len : w3.buf.length = w.buf.length := by
        rw [hb3]; exact hnblen
      have hr3' : w3.sink.received =
          w.sink.received ++ (w.buf.take w.used ++ data.take (w.buf.length - w.used)) := by
        rw [hr3]
        congr 1
        have htk : (w.buf.take w.used ++ data.take (w.buf.length - w.used)).take
            (w.used + (w.buf.length - w.used)) =
            w.buf.take w.used ++ data.take (w.buf.length - w.used) := by
          apply List.take_of_length_le
          rw [hnblen]
          omega
        exact htk
      obtain ⟨w2, hrun2, he2, hb2, hu2, hr2⟩ := writeLoop_direct_ok sk hf (data.length + 1)
        (data.drop (w.buf.length - w.used)) (total + (w.buf.length - w.used)) w3 he3 hu3
        (by omega) (by rw [List.length_drop]; omega)
      have harith : total + (w.buf.length - w.used) +
          (data.drop (w.buf.length - w.used)).length = total + data.length := by
        rw [List.length_drop]; omega
      rw [harith] at hrun2
      have hstep : writeLoop sk (data.length + 2) w data total =
          writeLoop sk (data.length + 1) w3 (data.drop (w.buf.length - w.used))
            (total + (w.buf.length - w.used)) := by
        simp only [writeLoop, if_pos hg, if_neg hu, hcopy, hflush]
      refine ⟨w2, ?_, he2, ?_, hu2, ?_⟩
      · rw [hstep, hrun2]
      · rw [hb2, hb3len]
      · rw [hr2, hr3']
        rw [List.append_assoc, List.append_assoc, List.append_assoc,
          List.take_append_drop]
    · have hsrc2 : data.take (w.buf.length - w.used) = data := by
        apply List.take_of_length_le; omega
      have hcopy : copyFn data w.buf w.used =
          (data.length, w.buf.take w.used ++ data ++ w.buf.drop (w.used + data.length)) := by
        simp only [copyFn, Nat.min_eq_left hused, hsrc2]
      have hstep : writeLoop sk (data.length + 2) w data total =
          some (.ok (total + data.length),
            { w with buf := w.buf.take w.used ++ data ++ w.buf.drop (w.used + data.length),
                     used := w.used + data.length }) := by
        simp only [writeLoop, if_neg hg, hcopy]
      have hbl : (w.buf.take w.used ++ data ++ w.buf.drop (w.used + data.length)).length =
          w.buf.length := by
        rw [List.length_append, List.length_append, List.length_take, List.length_drop]
        omega
      refine ⟨_, hstep, herr, hbl, ?_, ?_⟩
      · show w.used + data.length ≤
          (w.buf.take w.used ++ data ++ w.buf.drop (w.used + data.length)).length
        rw [hbl]; omega
      · have hl1 : (w.buf.take w.used).length = w.used := by
          rw [List.length_take]; omega
        have htk : (w.buf.take w.used ++ data ++ w.buf.drop (w.used + data.length)).take
            (w.used + data.length) = w.buf.take w.used ++ data := by
          rw [List.append_assoc, List.take_append_eq_append_take, hl1]
          rw [List.take_of_length_le
            (show (w.buf.take w.used).length ≤ w.used + data.length by omega)]
          have h2 : w.used + data.length - w.used = data.length := by omega
          rw [h2, List.take_left]
        rw [htk]
        simp [List.append_assoc]

theorem BufWriter_write_ok (sk : WSink) (hf : Accepting sk.f)
    (data : List Nat) (w : BWSt)
    (herr : w.err = none) (hused : w.used ≤ w.buf.length) (hcap : 1 ≤ w.buf.length) :
    ∃ w2, BufWriter_write sk w data = some (.ok data.length, w2) ∧
      w2.err = none ∧ w2.buf.length = w.buf.length ∧ w2.used ≤ w2.buf.length ∧
      w2.sink.received ++ w2.buf.take w2.used =
        w.sink.received ++ w.buf.take w.used ++ data := by
  by_cases hd : data.length = 0
  · have hdn : data = [] := List.length_eq_zero.mp hd
    subst hdn
    refine ⟨w, ?_, herr, rfl, hused, by simp⟩
    rw [BufWriter_write, herr]
    simp
  · obtain ⟨w2, hrun, he2, hb2, hu2, hr2⟩ :=
      writeLoop_ok sk hf data w 0 herr hused hcap
    refine ⟨w2, ?_, he2, hb2, hu2, hr2⟩
    rw [BufWriter_write, herr]
    simp only [if_neg hd]
    rw [hrun, Nat.zero_add]

theorem runWrites_ok (sk : WSink) (hf : Accepting sk.f) :
    ∀ (bs : List (List Nat)) (w : BWSt) (acc : List Nat),
      w.err = none → w.used ≤ w.buf.length → 1 ≤ w.buf.length →
      ∃ w2, runWrites sk w bs acc = some (.ok (acc ++ bs.map List.length), w2) ∧
        w2.sink.received = w.sink.received ++ w.buf.take w.used ++ bs.flatten := by
  intro bs
  induction bs with
  | nil =>
    intro w acc herr hused hcap
    obtain ⟨w2, hflush, _, _, _, hr2⟩ := BufWriter_flush_ok sk hf w herr
    refine ⟨w2, ?_, ?_⟩
    · rw [runWrites, hflush]
      simp
    · rw [hr2]
      simp
  | cons b rest ih =>
    intro w acc herr hused hcap
    obtain ⟨w2, hw, he2, hb2, hu2, hr2⟩ := BufWriter_write_ok sk hf b w herr hused hcap
    obtain ⟨w3, hrun, hr3⟩ := ih w2 (acc ++ [b.length]) he2 (by omega) (by omega)
    refine ⟨w3, ?_, ?_⟩
    · rw [runWrites, hw]
      show runWrites sk w2 rest (acc ++ [b.length]) =
        some (.ok (acc ++ List.map List.length (b :: rest)), w3)
      rw [hrun]
      simp
    · rw [hr3, hr2]
      simp [List.append_assoc]

/-- C1: for every list of byte arrays `bs`, every capacity `C ≥ 1` and every
sink whose write operation accepts at least one byte and at most the length of
the buffer handed to it on each call, performing `write(b)` for each buffer in
turn and then `flush()` on a fresh `BufWriter` of capacity `C` succeeds, every
`write(b)` returns `b.length`, and the sink receives exactly the concatenation
of the buffers, in order, with no gaps, duplicates or overlaps. -/
theorem bufWriter_roundtrip (C : Nat) (f : Nat → Nat → Except Nat Nat)
    (bs : List (List Nat)) (hC : 1 ≤ C) (hf : Accepting f) :
    ∃ w2, runWrites ⟨f⟩ ⟨List.replicate C 0, 0, none, ⟨0, []⟩⟩ bs [] =
        some (.ok (bs.map List.length), w2) ∧
      w2.sink.received = bs.flatten := by
  obtain ⟨w2, hrun, hr2⟩ := runWrites_ok ⟨f⟩ hf bs ⟨List.replicate C 0, 0, none, ⟨0, []⟩⟩ []
    rfl (by simp) (by simp; omega)
  refine ⟨w2, ?_, ?_⟩
  · simpa using hrun
  · simpa using hr2

/-- Witness for C1: two writes `[1, 2]` and `[3]` through capacity 2 with a
sink accepting one byte per call. -/
theorem bufWriter_roundtrip_witness :
    1 ≤ 2 ∧ Accepting (fun _ len => .ok (min 1 len)) ∧
      ∃ w2, runWrites ⟨fun _ len => .ok (min 1 len)⟩
          ⟨List.replicate 2 0, 0, none, ⟨0, []⟩⟩ [[1, 2], [3]] [] =
          some (.ok ([[1, 2], [3]].map List.length), w2) ∧
        w2.sink.received = [[1, 2], [3]].flatten := by
  have hf : Accepting (fun _ len => .ok (min 1 len)) := by
    intro k len hlen
    exact ⟨min 1 len, rfl, by omega, by omega⟩
  exact ⟨by omega, hf, bufWriter_roundtrip 2 (fun _ len => .ok (min 1 len)) [[1, 2], [3]]
    (by omega) hf⟩

theorem BufWriter_flush_error_latch (sk : WSink) (w : BWSt) (e2 : Nat) (w2 : BWSt)
    (h : BufWriter_flush sk w = some (.error e2, w2)) : w2.err = some e2 := by
  cases herr : w.err with
  | some e0 =>
    rw [BufWriter_flush, herr] at h
    simp only [Option.some.injEq, Prod.mk.injEq, Except.error.injEq] at h
    obtain ⟨h1, h2⟩ := h
    subst h1; subst h2
    exact herr
  | none =>
    rw [BufWriter_flush, herr] at h
    by_cases hu : w.used = 0
    · rw [if_pos hu] at h
      simp at h
    · rw [if_neg hu] at h
      cases hwa : writeAllLoop sk (w.used + 1) w.sink (w.buf.take w.used) with
      | none => rw [hwa] at h; cases h
      | some p =>
        obtain ⟨res, ssk⟩ := p
        cases res with
        | error e =>
          rw [hwa] at h
          simp only [Option.some.injEq, Prod.mk.injEq, Except.error.injEq] at h
          obtain ⟨h1, h2⟩ := h
          subst h1; subst h2
          rfl
        | ok u =>
          rw [hwa] at h
          simp at h

theorem writeLoop_error_latch (sk : WSink) :
    ∀ (fuel : Nat) (w : BWSt) (data : List Nat) (total e2 : Nat) (w2 : BWSt),
      writeLoop sk fuel w data total = some (.error e2, w2) → w2.err = some e2 := by
  intro fuel
  induction fuel with
  | zero => intro w data total e2 w2 h; cases h
  | succ f ih =>
    intro w data total e2 w2 h
    rw [writeLoop] at h
    by_cases hg : w.buf.length - w.used < data.length
    · rw [if_pos hg] at h
      by_cases hu : w.used = 0
      · rw [if_pos hu] at h
        cases hsw : sk.f w.sink.calls data.length with
        | error e =>
          simp only [sinkWrite, hsw] at h
          simp only [Option.some.injEq, Prod.mk.injEq, Except.error.injEq] at h
          obtain ⟨h1, h2⟩ := h
          subst h1; subst h2
          rfl
        | ok n =>
          simp only [sinkWrite, hsw] at h
          exact ih _ _ _ _ _ h
      · rw [if_neg hu] at h
        cases hcp : copyFn data w.buf w.used with
        | mk n buf2 =>
          simp only [hcp] at h
          cases hfl : BufWriter_flush sk { w with buf := buf2, used := w.used + n } with
          | none => simp only [hfl] at h; cases h
          | some p =>
            obtain ⟨res, w3⟩ := p
            cases res with
            | error e =>
              simp only [hfl, Option.some.injEq, Prod.mk.injEq, Except.error.injEq] at h
              obtain ⟨h1, h2⟩ := h
              subst h1; subst h2
              exact BufWriter_flush_error_latch sk _ _ _ hfl
            | ok u =>
              simp only [hfl] at h
              exact ih _ _ _ _ _ h
    · rw [if_neg hg] at h
      cases hcp : copyFn data w.buf w.used with
      | mk n buf2 => simp [hcp] at h

theorem BufWriter_write_error_latch (sk : WSink) (w : BWSt) (data : List Nat)
    (e2 : Nat) (w2 : BWSt)
    (h : BufWriter_write sk w data = some (.error e2, w2)) : w2.err = some e2 := by
  cases herr : w.err with
  | some e0 =>
    rw [BufWriter_write, herr] at h
    simp only [Option.some.injEq, Prod.mk.injEq, Except.error.injEq] at h
    obtain ⟨h1, h2⟩ := h
    subst h1; subst h2
    exact herr
  | none =>
    rw [BufWriter_write, herr] at h
    by_cases hd : data.length = 0
    · rw [if_pos hd] at h; simp at h
    · rw [if_neg hd] at h
      exact writeLoop_error_latch sk _ _ _ _ _ _ h

/-- C4: for both `BufWriter` and `BufWriterSync`, once a sink error `e` is
latched (`err = some e`), every subsequent `write` or `flush` immediately
rethrows exactly that stored error and leaves the writer state — in particular
the sink — completely untouched; whenever `write` or `flush` does throw an
error, that error is stored; and `reset(newSink)` clears the stored error and
the used-byte count (discarding unflushed data) and rebinds the sink, after
which a write against a compliant sink succeeds again. -/
theorem bufWriter_error_latched_until_reset (sk : WSink) (w : BWSt)
    (data : List Nat) (e : Nat) (newSink : WSinkSt) (herr : w.err = some e) :
    BufWriter_write sk w data = some (.error e, w) ∧
    BufWriter_flush sk w = some (.error e, w) ∧
    BufWriterSync_writeSync sk w data = some (.error e, w) ∧
    BufWriterSync_flush sk w = some (.error e, w) ∧
    (∀ w0 d e2 w2, BufWriter_write sk w0 d = some (.error e2, w2) → w2.err = some e2) ∧
    (∀ w0 e2 w2, BufWriter_flush sk w0 = some (.error e2, w2) → w2.err = some e2) ∧
    (∀ w0 d e2 w2, BufWriterSync_writeSync sk w0 d = some (.error e2, w2) →
      w2.err = some e2) ∧
    (∀ w0 e2 w2, BufWriterSync_flush sk w0 = some (.error e2, w2) → w2.err = some e2) ∧
    (BufWriter_reset w newSink).err = none ∧
    (BufWriter_reset w newSink).used = 0 ∧
    (BufWriter_reset w newSink).sink = newSink ∧
    (Accepting sk.f → 1 ≤ w.buf.length →
      ∃ w2, BufWriter_write sk (BufWriter_reset w newSink) data =
        some (.ok data.length, w2)) := by
  refine ⟨?_, ?_, ?_, ?_, ?_, ?_, ?_, ?_, rfl, rfl, rfl, ?_⟩
  · rw [BufWriter_write, herr]
  · rw [BufWriter_flush, herr]
  · rw [BufWriterSync_writeSync, BufWriter_write, herr]
  · rw [BufWriterSync_flush, BufWriter_flush, herr]
  · intro w0 d e2 w2 h; exact BufWriter_write_error_latch sk w0 d e2 w2 h
  · intro w0 e2 w2 h; exact BufWriter_flush_error_latch sk w0 e2 w2 h
  · intro w0 d e2 w2 h; exact BufWriter_write_error_latch sk w0 d e2 w2 h
  · intro w0 e2 w2 h; exact BufWriter_flush_error_latch sk w0 e2 w2 h
  · intro hf hcap
    obtain ⟨w2, hrun, _, _, _, _⟩ :=
      BufWriter_write_ok sk hf data (BufWriter_reset w newSink) rfl (by simp [BufWriter_reset]) hcap
    exact ⟨w2, hrun⟩

/-- Witness for C4 at a concrete latched writer. -/
theorem bufWriter_error_latched_until_reset_witness :
    (BWSt.mk [0, 0] 1 (some 7) ⟨2, [9]⟩).err = some 7 ∧
    (BufWriter_write ⟨fun _ len => .ok (min 1 len)⟩ ⟨[0, 0], 1, some 7, ⟨2, [9]⟩⟩ [5] =
        some (.error 7, ⟨[0, 0], 1, some 7, ⟨2, [9]⟩⟩) ∧
      BufWriter_flush ⟨fun _ len => .ok (min 1 len)⟩ ⟨[0, 0], 1, some 7, ⟨2, [9]⟩⟩ =
        some (.error 7, ⟨[0, 0], 1, some 7, ⟨2, [9]⟩⟩) ∧
      BufWriterSync_writeSync ⟨fun _ len => .ok (min 1 len)⟩
          ⟨[0, 0], 1, some 7, ⟨2, [9]⟩⟩ [5] =
        some (.error 7, ⟨[0, 0], 1, some 7, ⟨2, [9]⟩⟩) ∧
      BufWriterSync_flush ⟨fun _ len => .ok (min 1 len)⟩ ⟨[0, 0], 1, some 7, ⟨2, [9]⟩⟩ =
        some (.error 7, ⟨[0, 0], 1, some 7, ⟨2, [9]⟩⟩) ∧
      (∀ w0 d e2 w2, BufWriter_write ⟨fun _ len => .ok (min 1 len)⟩ w0 d =
        some (.error e2, w2) → w2.err = some e2) ∧
      (∀ w0 e2 w2, BufWriter_flush ⟨fun _ len => .ok (min 1 len)⟩ w0 =
        some (.error e2, w2) → w2.err = some e2) ∧
      (∀ w0 d e2 w2, BufWriterSync_writeSync ⟨fun _ len => .ok (min 1 len)⟩ w0 d =
        some (.error e2, w2) → w2.err = some e2) ∧
      (∀ w0 e2 w2, BufWriterSync_flush ⟨fun _ len => .ok (min 1 len)⟩ w0 =
        some (.error e2, w2) → w2.err = some e2) ∧
      (BufWriter_reset ⟨[0, 0], 1, some 7, ⟨2, [9]⟩⟩ ⟨0, []⟩).err = none ∧
      (BufWriter_reset ⟨[0, 0], 1, some 7, ⟨2, [9]⟩⟩ ⟨0, []⟩).used = 0 ∧
      (BufWriter_reset ⟨[0, 0], 1, some 7, ⟨2, [9]⟩⟩ ⟨0, []⟩).sink = ⟨0, []⟩ ∧
      (Accepting (fun _ len => .ok (min 1 len)) →
        1 ≤ (BWSt.mk [0, 0] 1 (some 7) ⟨2, [9]⟩).buf.length →
        ∃ w2, BufWriter_write ⟨fun _ len => .ok (min 1 len)⟩
            (BufWriter_reset ⟨[0, 0], 1, some 7, ⟨2, [9]⟩⟩ ⟨0, []⟩) [5] =
          some (.ok ([5] : List Nat).length, w2))) :=
  ⟨rfl, bufWriter_error_latched_until_reset ⟨fun _ len => .ok (min 1 len)⟩
    ⟨[0, 0], 1, some 7, ⟨2, [9]⟩⟩ [5] 7 ⟨0, []⟩ rfl⟩

/-- Embedding of the inner "Modified KMP" while-loop of `readDelim`: state is
the current `sliceToProcess`, `inspectIndex` `ii`, `matchIndex` `mi` and the
chunks yielded so far.  `mi` is an `Option Nat` because the buggy LPS table
can send the JavaScript variable out of range, making it `undefined` (`none`),
after which every comparison fails and the fallback keeps it `undefined` — the
`none` arm therefore spins without progress, exactly like the source.  The
loop is driven by fuel (`readDelimLoop` supplies `2 * slice.length + d.length
+ 2`, sufficient for every delimiter whose table decreases on fallback);
`none` models divergence. -/
def scanLoop (d lps : List Nat) :
    Nat → List Nat → Nat → Option Nat → List (List Nat) →
    Option (List Nat × Nat × Option Nat × List (List Nat))
  | 0, _, _, _, _ => none
  | fuel + 1, slice, ii, mi, out =>
    if ii < slice.length then
      match mi with
      | none => scanLoop d lps fuel slice ii none out
      | some m =>
        if slice[ii]? == d[m]? then
          if m + 1 = d.length then
            scanLoop d lps fuel (slice.drop (ii + 1)) 0 (some 0)
              (out ++ [slice.take (ii + 1 - d.length)])
          else scanLoop d lps fuel slice (ii + 1) (some (m + 1)) out
        else if m = 0 then scanLoop d lps fuel slice (ii + 1) (some 0) out
        else scanLoop d lps fuel slice ii lps[m - 1]? out
    else some (slice, ii, mi, out)

/-- Embedding of the outer read loop of `readDelim`.  Modelled from the spec
where the sources are missing: the accumulation `Buffer` (`io/buffer.ts`) is
"a growable byte buffer ... replaced (not mutated in place) each time a match
is found", and `writeAll(inputBuffer, sliceRead)` appends every byte, so the
buffer is a plain byte list here.  `frags` is the sequence of chunks the
source delivers on successive reads (each clipped to the scratch buffer size
`max 1024 (d.length + 1)` handed to `read`), followed by end-of-stream; the
EOF branch yields the accumulated remainder as one final chunk.  The source's
`result < 0` branch cannot arise here since counts are naturals. -/
def readDelimLoop (d lps : List Nat) :
    List (List Nat) → List Nat → Nat → Option Nat → List (List Nat) →
    Option (List (List Nat))
  | [], acc, _, _, out => some (out ++ [acc])
  | frag :: rest, acc, ii, mi, out =>
    match scanLoop d lps
        (2 * (acc ++ frag.take (max 1024 (d.length + 1))).length + d.length + 2)
        (acc ++ frag.take (max 1024 (d.length + 1))) ii mi out with
    | none => none
    | some (slice2, ii2, mi2, out2) => readDelimLoop d lps rest slice2 ii2 mi2 out2

/-- Embedding of `readDelim(reader, delim)`: compute the LPS table once (with
fuel — `createLPS` need not terminate), then run the read-scan loop from an
empty accumulation buffer and zeroed indices. -/
def readDelimRun (frags : List (List Nat)) (d : List Nat) : Option (List (List Nat)) :=
  match createLPS ((d.length + 1) * 300) d with
  | none => none
  | some lps => readDelimLoop d lps frags [] 0 (some 0) []

/-- Byte-at-a-time transition of the scanner specialised to the delimiter
`"::" = [58, 58]` with its (here correct) table `[0, 1]`: used to show that
the scan is a left fold over the input bytes, making the output independent of
fragment boundaries. -/
def step2 (st : List Nat × Nat × List (List Nat)) (b : Nat) :
    List Nat × Nat × List (List Nat) :=
  match st with
  | (sc, mi, out) =>
    if mi = 1 then
      if b = 58 then ([], 0, out ++ [sc.dropLast])
      else (sc ++ [b], 0, out)
    else if b = 58 then (sc ++ [b], 1, out)
    else (sc ++ [b], 0, out)

theorem step2_snd_le (st : List Nat × Nat × List (List Nat)) (b : Nat) :
    (step2 st b).2.1 ≤ 1 := by
  rcases st with ⟨sc, mi, out⟩
  by_cases h1 : mi = 1 <;> by_cases h2 : b = 58 <;> simp [step2, h1, h2]

theorem foldl_step2_snd_le (l : List Nat) :
    ∀ st : List Nat × Nat × List (List Nat), st.2.1 ≤ 1 →
      (l.foldl step2 st).2.1 ≤ 1 := by
  induction l with
  | nil => intro st h; simpa using h
  | cons b bs ih => intro st h; rw [List.foldl_cons]; exact ih _ (step2_snd_le st b)

theorem scanLoop_colon2 :
    ∀ (tail : List Nat) (fuel : Nat) (sc : List Nat) (mi : Nat)
      (out : List (List Nat)) (sc2 : List Nat) (mi2 : Nat) (out2 : List (List Nat)),
      mi ≤ 1 → 2 * tail.length + 1 ≤ fuel →
      tail.foldl step2 (sc, mi, out) = (sc2, mi2, out2) →
      scanLoop [58, 58] [0, 1] fuel (sc ++ tail) sc.length (some mi) out =
        some (sc2, sc2.length, some mi2, out2) := by
  intro tail
  induction tail with
  | nil =>
    intro fuel sc mi out sc2 mi2 out2 hmi hfuel hfold
    simp only [List.foldl_nil, Prod.mk.injEq] at hfold
    obtain ⟨rfl, rfl, rfl⟩ := hfold
    obtain ⟨g, rfl⟩ : ∃ g, fuel = g + 1 := ⟨fuel - 1, by omega⟩
    rw [List.append_nil, scanLoop, if_neg (lt_irrefl _)]
  | cons b bs ih =>
    intro fuel sc mi out sc2 mi2 out2 hmi hfuel hfold
    obtain ⟨g, rfl⟩ : ∃ g, fuel = g + 1 := ⟨fuel - 1, by omega⟩
    have hlt : sc.length < (sc ++ b :: bs).length := by simp
    have hget : (sc ++ b :: bs)[sc.length]? = some b := by
      rw [List.getElem?_append_right (le_refl _)]; simp
    rw [List.foldl_cons] at hfold
    interval_cases mi
    · by_cases hb : b = 58
      · subst hb
        have hstep : scanLoop [58, 58] [0, 1] (g + 1) (sc ++ 58 :: bs) sc.length
            (some 0) out =
            scanLoop [58, 58] [0, 1] g (sc ++ 58 :: bs) (sc.length + 1) (some 1) out := by
          rw [scanLoop, if_pos hlt, hget]
          rw [if_pos (by decide), if_neg (by decide)]
        rw [hstep]
        have hshape : sc ++ 58 :: bs = (sc ++ [58]) ++ bs := by simp
        have hii : sc.length + 1 = (sc ++ [58]).length := by simp
        rw [hshape, hii]
        apply ih g (sc ++ [58]) 1 out sc2 mi2 out2 (by omega)
          (by simp only [List.length_cons] at hfuel; omega)
        have hs : step2 (sc, 0, out) 58 = (sc ++ [58], 1, out) := by simp [step2]
        rw [hs] at hfold
        exact hfold
      · have hstep : scanLoop [58, 58] [0, 1] (g + 1) (sc ++ b :: bs) sc.length
            (some 0) out =
            scanLoop [58, 58] [0, 1] g (sc ++ b :: bs) (sc.length + 1) (some 0) out := by
          rw [scanLoop, if_pos hlt, hget]
          rw [if_neg (by simp [hb]), if_pos rfl]
        rw [hstep]
        have hshape : sc ++ b :: bs = (sc ++ [b]) ++ bs := by simp
        have hii : sc.length + 1 = (sc ++ [b]).length := by simp
        rw [hshape, hii]
        apply ih g (sc ++ [b]) 0 out sc2 mi2 out2 (by omega)
          (by simp only [List.length_cons] at hfuel; omega)
        have hs : step2 (sc, 0, out) b = (sc ++ [b], 0, out) := by simp [step2, hb]
        rw [hs] at hfold
        exact hfold
    · by_cases hb : b = 58
      · subst hb
        have hdrop : (sc ++ 58 :: bs).drop (sc.length + 1) = bs := by
          rw [List.drop_append_eq_append_drop]; simp
        have htake : (sc ++ 58 :: bs).take (sc.length + 1 - ([58, 58] : List Nat).length) =
            sc.dropLast := by
          have hlen2 : ([58, 58] : List Nat).length = 2 := rfl
          rw [hlen2]
          rw [List.take_append_eq_append_take]
          have h1 : sc.length + 1 - 2 - sc.length = 0 := by omega
          rw [h1, List.take_zero, List.append_nil, List.dropLast_eq_take]
          congr 1
        have hstep : scanLoop [58, 58] [0, 1] (g + 1) (sc ++ 58 :: bs) sc.length
            (some 1) out =
            scanLoop [58, 58] [0, 1] g bs 0 (some 0) (out ++ [sc.dropLast]) := by
          rw [scanLoop, if_pos hlt, hget]
          rw [if_pos (by decide), if_pos (by decide), hdrop, htake]
        rw [hstep]
        have hs : step2 (sc, 1, out) 58 = ([], 0, out ++ [sc.dropLast]) := rfl
        rw [hs] at hfold
        exact ih g [] 0 (out ++ [sc.dropLast]) sc2 mi2 out2 (by omega)
          (by simp only [List.length_cons] at hfuel; omega) hfold
      · have hstep1 : scanLoop [58, 58] [0, 1] (g + 1) (sc ++ b :: bs) sc.length
            (some 1) out =
            scanLoop [58, 58] [0, 1] g (sc ++ b :: bs) sc.length (some 0) out := by
          rw [scanLoop, if_pos hlt, hget]
          rw [if_neg (by simp [hb]), if_neg (by decide)]
          rfl
        obtain ⟨g2, rfl⟩ : ∃ g2, g = g2 + 1 :=
          ⟨g - 1, by simp only [List.length_cons] at hfuel; omega⟩
        have hstep2 : scanLoop [58, 58] [0, 1] (g2 + 1) (sc ++ b :: bs) sc.length
            (some 0) out =
            scanLoop [58, 58] [0, 1] g2 (sc ++ b :: bs) (sc.length + 1) (some 0) out := by
          rw [scanLoop, if_pos hlt, hget]
          rw [if_neg (by simp [hb]), if_pos rfl]
        rw [hstep1, hstep2]
        have hshape : sc ++ b :: bs = (sc ++ [b]) ++ bs := by simp
        have hii : sc.length + 1 = (sc ++ [b]).length := by simp
        rw [hshape, hii]
        apply ih g2 (sc ++ [b]) 0 out sc2 mi2 out2 (by omega)
          (by simp only [List.length_cons] at hfuel; omega)
        have hs : step2 (sc, 1, out) b = (sc ++ [b], 0, out) := by simp [step2, hb]
        rw [hs] at hfold
        exact hfold

theorem length_le_flatten (frags : List (List Nat)) :
    ∀ fr ∈ frags, fr.length ≤ frags.flatten.length := by
  induction frags with
  | nil => intro fr h; cases h
  | cons a rest ih =>
    intro fr h
    rcases List.mem_cons.mp h with rfl | hm
    · rw [List.flatten_cons, List.length_append]; omega
    · have h2 := ih fr hm
      rw [List.flatten_cons, List.length_append]; omega

theorem readDelimLoop_colon2 :
    ∀ (frags : List (List Nat)) (acc : List Nat) (mi : Nat) (out : List (List Nat))
      (sc2 : List Nat) (mi2 : Nat) (out2 : List (List Nat)),
      mi ≤ 1 → (∀ fr ∈ frags, fr.length ≤ 1024) →
      (frags.flatten).foldl step2 (acc, mi, out) = (sc2, mi2, out2) →
      readDelimLoop [58, 58] [0, 1] frags acc acc.length (some mi) out =
        some (out2 ++ [sc2]) := by
  intro frags
  induction frags with
  | nil =>
    intro acc mi out sc2 mi2 out2 hmi hfr hfold
    simp only [List.flatten_nil, List.foldl_nil, Prod.mk.injEq] at hfold
    obtain ⟨rfl, rfl, rfl⟩ := hfold
    rfl
  | cons fr rest ih =>
    intro acc mi out sc2 mi2 out2 hmi hfr hfold
    have hfr1 : fr.take (max 1024 (([58, 58] : List Nat).length + 1)) = fr := by
      apply List.take_of_length_le
      have h1 := hfr fr (by simp)
      simp only [List.length_cons, List.length_nil]
      omega
    rcases hsfold : fr.foldl step2 (acc, mi, out) with ⟨sc1, mi1, out1⟩
    have hmi1 : mi1 ≤ 1 := by
      have h2 := foldl_step2_snd_le fr (acc, mi, out) hmi
      rw [hsfold] at h2
      exact h2
    have hscan := scanLoop_colon2 fr
      (2 * (acc ++ fr.take (max 1024 (([58, 58] : List Nat).length + 1))).length +
        ([58, 58] : List Nat).length + 2)
      acc mi out sc1 mi1 out1 hmi
      (by rw [hfr1, List.length_append]; omega) hsfold
    rw [readDelimLoop]
    rw [hfr1] at hscan ⊢
    rw [hscan]
    have hrest := ih sc1 mi1 out1 sc2 mi2 out2 hmi1
      (fun fr2 hm => hfr fr2 (List.mem_cons_of_mem _ hm))
      (by
        rw [List.flatten_cons, List.foldl_append, hsfold] at hfold
        exact hfold)
    exact hrest

/-- C3: for every fragmentation of the byte sequence `"A::B::C"` across
successive source reads — one read, byte-by-byte, or any other boundaries,
including one splitting the `"::"` delimiter — `readDelim` with delimiter
`"::"` yields exactly the chunks `"A"`, `"B"`, `"C"` in order, with no
trailing empty chunk and no dropped bytes. -/
theorem readDelim_fragmentation_independent (frags : List (List Nat))
    (h : frags.flatten = [65, 58, 58, 66, 58, 58, 67]) :
    readDelimRun frags [58, 58] = some [[65], [66], [67]] := by
  have hlps : createLPS ((([58, 58] : List Nat).length + 1) * 300) [58, 58] =
      some [0, 1] := by decide
  rw [readDelimRun, hlps]
  have hfr : ∀ fr ∈ frags, fr.length ≤ 1024 := by
    intro fr hm
    have h1 := length_le_flatten frags fr hm
    rw [h] at h1
    simp only [List.length_cons, List.length_nil] at h1
    omega
  have hfold : frags.flatten.foldl step2 ([], 0, []) = ([67], 0, [[65], [66]]) := by
    rw [h]; rfl
  have h2 := readDelimLoop_colon2 frags [] 0 [] [67] 0 [[65], [66]]
    (by omega) hfr hfold
  simpa using h2

/-- Witness for C3 at a fragmentation whose boundary splits the delimiter. -/
theorem readDelim_fragmentation_independent_witness :
    ([[65, 58], [58, 66, 58], [58, 67]] : List (List Nat)).flatten =
        [65, 58, 58, 66, 58, 58, 67] ∧
      readDelimRun [[65, 58], [58, 66, 58], [58, 67]] [58, 58] =
        some [[65], [66], [67]] :=
  ⟨by decide, readDelim_fragmentation_independent [[65, 58], [58, 66, 58], [58, 67]]
    (by decide)⟩

theorem scanLoop_out_mono (d lps : List Nat) :
    ∀ (fuel : Nat) (slice : List Nat) (ii : Nat) (mi : Option Nat)
      (out : List (List Nat)) (sc2 : List Nat) (ii2 : Nat) (mi2 : Option Nat)
      (out2 : List (List Nat)),
      scanLoop d lps fuel slice ii mi out = some (sc2, ii2, mi2, out2) →
      ∃ tl, out2 = out ++ tl := by
  intro fuel
  induction fuel with
  | zero => intro slice ii mi out sc2 ii2 mi2 out2 h; cases h
  | succ f ih =>
    intro slice ii mi out sc2 ii2 mi2 out2 h
    cases mi with
    | none =>
      rw [scanLoop] at h
      by_cases hlt : ii < slice.length
      · rw [if_pos hlt] at h
        exact ih _ _ _ _ _ _ _ _ h
      · rw [if_neg hlt] at h
        simp only [Option.some.injEq, Prod.mk.injEq] at h
        exact ⟨[], by rw [← h.2.2.2]; simp⟩
    | some m =>
      rw [scanLoop] at h
      by_cases hlt : ii < slice.length
      · rw [if_pos hlt] at h
        by_cases hcmp : (slice[ii]? == d[m]?) = true
        · rw [if_pos hcmp] at h
          by_cases hm : m + 1 = d.length
          · rw [if_pos hm] at h
            obtain ⟨tl, htl⟩ := ih _ _ _ _ _ _ _ _ h
            exact ⟨[slice.take (ii + 1 - d.length)] ++ tl,
              by rw [htl, List.append_assoc]⟩
          · rw [if_neg hm] at h
            exact ih _ _ _ _ _ _ _ _ h
        · rw [if_neg hcmp] at h
          by_cases hm0 : m = 0
          · rw [if_pos hm0] at h
            exact ih _ _ _ _ _ _ _ _ h
          · rw [if_neg hm0] at h
            exact ih _ _ _ _ _ _ _ _ h
      · rw [if_neg hlt] at h
        simp only [Option.some.injEq, Prod.mk.injEq] at h
        exact ⟨[], by rw [← h.2.2.2]; simp⟩

theorem readDelimLoop_ne_nil (d lps : List Nat) :
    ∀ (frags : List (List Nat)) (acc : List Nat) (ii : Nat) (mi : Option Nat)
      (out res : List (List Nat)),
      readDelimLoop d lps frags acc ii mi out = some res →
      ∃ pre last, res = out ++ pre ++ [last] := by
  intro frags
  induction frags with
  | nil =>
    intro acc ii mi out res h
    simp only [readDelimLoop, Option.some.injEq] at h
    exact ⟨[], acc, by rw [← h]; simp⟩
  | cons fr rest ih =>
    intro acc ii mi out res h
    rw [readDelimLoop] at h
    cases hscan : scanLoop d lps
        (2 * (acc ++ fr.take (max 1024 (d.length + 1))).length + d.length + 2)
        (acc ++ fr.take (max 1024 (d.length + 1))) ii mi out with
    | none => rw [hscan] at h; cases h
    | some q =>
      obtain ⟨sc1, ii1, mi1, out1⟩ := q
      rw [hscan] at h
      obtain ⟨pre, last, hres⟩ := ih sc1 ii1 mi1 out1 res h
      obtain ⟨tl, htl⟩ := scanLoop_out_mono d lps _ _ _ _ _ _ _ _ _ hscan
      refine ⟨tl ++ pre, last, ?_⟩
      rw [hres, htl]
      simp [List.append_assoc]

/-- C10: whenever a `readDelim` run completes, the end-of-stream branch has
emitted the accumulated remainder (possibly empty) as one final chunk, so the
output always contains at least that last chunk; a completely empty input
yields exactly one empty chunk, and an input ending with the delimiter yields
a trailing empty chunk after the last data chunk. -/
theorem readDelim_final_chunk :
    (∀ (frags : List (List Nat)) (d : List Nat) (out : List (List Nat)),
      readDelimRun frags d = some out → out ≠ []) ∧
    readDelimRun [] [58, 58] = some [[]] ∧
    readDelimRun [[65, 58, 58]] [58, 58] = some [[65], []] := by
  refine ⟨?_, by decide, by decide⟩
  intro frags d out h
  rw [readDelimRun] at h
  cases hlps : createLPS ((d.length + 1) * 300) d with
  | none => rw [hlps] at h; cases h
  | some lps =>
    rw [hlps] at h
    obtain ⟨pre, last, hres⟩ := readDelimLoop_ne_nil d lps frags [] 0 (some 0) [] out h
    rw [hres]
    simp

/-- Witness for C10 at a one-fragment input with a one-byte delimiter. -/
theorem readDelim_final_chunk_witness :
    readDelimRun [[65]] [58] = some [[65]] ∧ ([[65]] : List (List Nat)) ≠ [] :=
  ⟨by decide, readDelim_final_chunk.1 [[65]] [58] [[65]] (by decide)⟩

/-- An abstract byte source (spec section 6): an oracle mapping the call index
and the free space of the buffer handed over to either the end-of-stream
signal (`none`) or the count of bytes it claims to have delivered. -/
structure Src where
  g : Nat → Nat → Option Nat

/-- Observable state of a source: the call count and the bytes it has not yet
delivered.  A read physically delivers the next `min rr len` pending bytes —
nothing can be written beyond the subarray handed over — while the claimed
count `rr` is returned unchanged (a source violating `rr ≤ len` simply leaves
stale bytes in the gap, as in the original). -/
structure SrcSt where
  calls : Nat
  pending : List Nat
deriving DecidableEq

/-- One call of the source's read operation with `len` bytes of space. -/
def srcRead (sk : Src) (st : SrcSt) (len : Nat) : Option Nat × List Nat × SrcSt :=
  match sk.g st.calls len with
  | none => (none, [], ⟨st.calls + 1, st.pending⟩)
  | some rr => (some rr, st.pending.take (min rr len),
      ⟨st.calls + 1, st.pending.drop (min rr len)⟩)

/-- Errors a `BufReader` operation can throw.  `bufferFull` carries the
allocation generation of its payload buffer alongside the bytes (see
`BRSt.gen`); `assertion` models a failed `assert(...)` in the source. -/
inductive RErr where
  | bufferFull (g : Nat) (p : List Nat)
  | partialRead (p : List Nat)
  | fillFullBuffer
  | noProgress
  | delimNotSingle
  | assertion
deriving DecidableEq

/-- State of a `BufReader`: internal buffer, cursor pair `(r, w)`,
end-of-stream flag, the bound source's observable state, and `gen`, the
allocation generation of `buf`.  `gen` is incremented exactly when the source
assigns a freshly allocated array to `this.buf` (the defensive reallocation in
`readSlice`), modelling object identity: a payload tagged with an older
generation can never alias the buffer that later operations write into. -/
structure BRSt where
  buf : List Nat
  r : Nat
  w : Nat
  eof : Bool
  gen : Nat
  src : SrcSt
deriving DecidableEq

/-- The cursor invariant of the spec: `0 ≤ r ≤ w ≤ capacity` (the first
inequality is free over `Nat`). -/
def Inv (st : BRSt) : Prop := st.r ≤ st.w ∧ st.w ≤ st.buf.length

/-- A source whose read operation returns either the end-of-stream sentinel or
a count `rr` with `0 ≤ rr ≤ len` (the lower bound is free over `Nat`). -/
def SrcBounded (sk : Src) : Prop := ∀ k len rr, sk.g k len = some rr → rr ≤ len

/-- `this.buf.copyWithin(0, this.r, this.w)` of `_fill`: slide `buf[r..w)` to
the front; bytes from index `w - r` on are unchanged. -/
def slideBuf (buf : List Nat) (r w : Nat) : List Nat :=
  (buf.drop r).take (w - r) ++ buf.drop (w - r)

/-- The bounded read-retry loop of `_fill` (`MAX_CONSECUTIVE_EMPTY_READS`
attempts): end-of-stream sets `eof`, a positive count returns, a zero count
retries, and exhausting the bound throws the no-progress error. -/
def fillLoop (sk : Src) : Nat → BRSt → Except RErr Unit × BRSt
  | 0, st => (.error .noProgress, st)
  | tries + 1, st =>
    match srcRead sk st.src (st.buf.length - st.w) with
    | (none, _, src2) => (.ok (), { st with eof := true, src := src2 })
    | (some rr, bytes, src2) =>
      if 0 < rr then
        (.ok (), { st with buf := setChunk st.buf st.w bytes, w := st.w + rr, src := src2 })
      else
        fillLoop sk tries
          { st with buf := setChunk st.buf st.w bytes, w := st.w + rr, src := src2 }

/-- The body of `_fill` after the slide: throw if the buffer is already full
(`bufio: tried to fill full buffer`), else run the bounded retry loop. -/
def fillGo (sk : Src) (st1 : BRSt) : Except RErr Unit × BRSt :=
  if st1.buf.length ≤ st1.w then (.error .fillFullBuffer, st1)
  else fillLoop sk 100 st1

/-- Embedding of `BufReader._fill`: slide pending data to the front when
`r > 0`, then `fillGo`. -/
def fillFn (sk : Src) (st : BRSt) : Except RErr Unit × BRSt :=
  fillGo sk (if 0 < st.r then
      { st with buf := slideBuf st.buf st.r st.w, w := st.w - st.r, r := 0 }
    else st)

/-- Embedding of `BufReader.read(p)` for a destination of size `plen`: returns
the result (`.ok none` is the end-of-stream sentinel `null`), the bytes
delivered into the destination, and the updated state.  The three source
paths: zero-size destination; large read into an empty buffer bypassing it
(note the `null` return does not set `eof`); and a single refill attempt
followed by the clamped copy out of `buf[r..w)`. -/
def readFn (sk : Src) (st : BRSt) (plen : Nat) :
    Except RErr (Option Nat) × List Nat × BRSt :=
  if plen = 0 then (.ok (some 0), [], st)
  else if st.r = st.w then
    if st.buf.length ≤ plen then
      match srcRead sk st.src plen with
      | (rrOpt, bytes, src2) => (.ok rrOpt, bytes, { st with src := src2 })
    else
      match srcRead sk st.src st.buf.length with
      | (none, _, src2) => (.ok none, [], { st with r := 0, w := 0, src := src2 })
      | (some rr, bytes, src2) =>
        if rr = 0 then (.ok (some 0), [], { st with r := 0, w := 0, src := src2 })
        else
          (.ok (some (min rr plen)),
            ((setChunk st.buf 0 bytes).drop 0).take (min rr plen),
            { st with buf := setChunk st.buf 0 bytes, r := min rr plen, w := rr,
                      src := src2 })
  else
    (.ok (some (min (st.w - st.r) plen)),
      (st.buf.drop st.r).take (min (st.w - st.r) plen),
      { st with r := st.r + min (st.w - st.r) plen })

/-- Embedding of `BufReader.readFull(p)` as a fueled loop: `got` is
`bytesRead`, `acc` the filled prefix of the destination; end-of-stream after
partial progress throws `PartialReadError` carrying that prefix.  Fuel bounds
the retries (a source forever returning zero makes the original loop spin);
`none` models divergence. -/
def readFullLoop (sk : Src) : Nat → BRSt → Nat → Nat → List Nat →
    Option (Except RErr (Option (List Nat)) × BRSt)
  | 0, _, _, _, _ => none
  | fuel + 1, st, plen, got, acc =>
    if got < plen then
      match readFn sk st (plen - got) with
      | (.error e, _, st2) => some (.error e, st2)
      | (.ok none, _, st2) =>
        if got = 0 then some (.ok none, st2)
        else some (.error (.partialRead acc), st2)
      | (.ok (some rr), bytes, st2) => readFullLoop sk fuel st2 plen (got + rr) (acc ++ bytes)
    else some (.ok (some acc), st)

/-- `readFull` entry point. -/
def readFullFn (sk : Src) (fuel : Nat) (st : BRSt) (plen : Nat) :
    Option (Except RErr (Option (List Nat)) × BRSt) :=
  readFullLoop sk fuel st plen 0 []

/-- Embedding of the `while (this.r === this.w)` loop of `readByte`.  Each
`_fill` either makes progress, sets `eof`, or throws, so four rounds of fuel
always suffice. -/
def readByteLoop (sk : Src) : Nat → BRSt → Option (Except RErr (Option Nat) × BRSt)
  | 0, _ => none
  | fuel + 1, st =>
    if st.r = st.w then
      if st.eof then some (.ok none, st)
      else
        match fillFn sk st with
        | (.error e, st2) => some (.error e, st2)
        | (.ok _, st2) => readByteLoop sk fuel st2
    else some (.ok (some (st.buf.getD st.r 0)), { st with r := st.r + 1 })

/-- `readByte` entry point. -/
def readByteFn (sk : Src) (st : BRSt) : Option (Except RErr (Option Nat) × BRSt) :=
  readByteLoop sk 4 st

/-- Embedding of the loop of `readSlice(delim)`; `s` is the persistent search
start (`do not rescan area we scanned before`).  The three exits: delimiter
found (a view of `buf[r .. r+i+1)` is returned and `r` advances past it);
end-of-stream (the remainder, or `null` when empty); buffer full (`r := w`,
the whole buffer becomes the error payload and `this.buf` is replaced by the
fresh copy `this.buf.slice(0)` — same bytes, new allocation, hence `gen + 1`).
Errors thrown by `_fill` propagate.  Fuel: each continuing iteration grows
`w - r` or sets `eof`, so `capacity + 2` suffices. -/
def readSliceLoop (sk : Src) (delim : Nat) :
    Nat → BRSt → Nat → Option (Except RErr (Option (List Nat)) × BRSt)
  | 0, _, _ => none
  | fuel + 1, st, s =>
    match byteIndexOf ((st.buf.drop (st.r + s)).take (st.w - (st.r + s))) delim with
    | some i0 =>
      some (.ok (some ((st.buf.drop st.r).take (i0 + s + 1))),
        { st with r := st.r + (i0 + s) + 1 })
    | none =>
      if st.eof then
        if st.r = st.w then some (.ok none, st)
        else some (.ok (some ((st.buf.drop st.r).take (st.w - st.r))),
          { st with r := st.w })
      else if st.buf.length ≤ st.w - st.r then
        some (.error (.bufferFull st.gen st.buf),
          { st with r := st.w, gen := st.gen + 1 })
      else
        match fillFn sk st with
        | (.error e, st2) => some (.error e, st2)
        | (.ok _, st2) => readSliceLoop sk delim fuel st2 (st.w - st.r)

/-- `readSlice` entry point: search start `0`, fuel `capacity + 2`. -/
def readSliceFn (sk : Src) (st : BRSt) (delim : Nat) :
    Option (Except RErr (Option (List Nat)) × BRSt) :=
  readSliceLoop sk delim (st.buf.length + 2) st 0

/-- Embedding of `readString(delim)`: the delimiter must be a single
character; the text decoding of the slice is modelled as the identity on
bytes, since it does not touch reader state. -/
def readStringFn (sk : Src) (st : BRSt) (delim : List Nat) :
    Option (Except RErr (Option (List Nat)) × BRSt) :=
  if delim.length = 1 then readSliceFn sk st (delim.headD 0)
  else some (.error .delimNotSingle, st)

/-- The carriage-return and line-feed byte constants of the source. -/
def CR : Nat := 13

/-- The line-feed byte constant of the source. -/
def LF : Nat := 10

/-- The `{line, more}` pair returned by `readLine`. -/
structure LineRes where
  line : List Nat
  more : Bool
deriving DecidableEq

/-- Embedding of `readLine()`: built on `readSlice(LF)`.  A `BufferFullError`
is not rethrown: if the partial payload ends in CR and the stream is not
exhausted, the cursor is rewound one byte (after asserting `r > 0`) and the CR
dropped from the returned fragment; `more` is `!eof`.  Any other error from
`readSlice` lacks a `partial` payload, so the source's
`assert(partial instanceof Uint8Array)` fails — modelled as the assertion
error.  A complete line has one trailing LF stripped, plus a CR immediately
preceding it. -/
def readLineFn (sk : Src) (st : BRSt) :
    Option (Except RErr (Option LineRes) × BRSt) :=
  match readSliceFn sk st LF with
  | none => none
  | some (.error (.bufferFull _ p), st2) =>
    if ¬st2.eof ∧ 0 < p.length ∧ p.getD (p.length - 1) 0 = CR then
      if st2.r = 0 then some (.error .assertion, st2)
      else some (.ok (some ⟨p.take (p.length - 1), !st2.eof⟩), { st2 with r := st2.r - 1 })
    else some (.ok (some ⟨p, !st2.eof⟩), st2)
  | some (.error _, st2) => some (.error .assertion, st2)
  | some (.ok none, st2) => some (.ok none, st2)
  | some (.ok (some line), st2) =>
    if line.length = 0 then some (.ok (some ⟨line, false⟩), st2)
    else if line.getD (line.length - 1) 0 = LF then
      if 1 < line.length ∧ line.getD (line.length - 2) 0 = CR then
        some (.ok (some ⟨line.take (line.length - 2), false⟩), st2)
      else some (.ok (some ⟨line.take (line.length - 1), false⟩), st2)
    else some (.ok (some ⟨line, false⟩), st2)

/-- Embedding of the refill loop of `peek(n)` (the `n < 0` guard cannot fire
over `Nat`).  After the loop: `null` at end-of-stream with nothing buffered, a
short slice at end-of-stream, `BufferFullError` with the available bytes when
`n` exceeds capacity, else the next `n` bytes without advancing `r`. -/
def peekLoop (sk : Src) (n : Nat) : Nat → BRSt → Option (Except RErr (Option (List Nat)) × BRSt)
  | 0, _ => none
  | fuel + 1, st =>
    if st.w - st.r < n ∧ st.w - st.r < st.buf.length ∧ ¬st.eof then
      match fillFn sk st with
      | (.error e, st2) => some (.error e, st2)
      | (.ok _, st2) => peekLoop sk n fuel st2
    else
      if st.w - st.r = 0 ∧ st.eof then some (.ok none, st)
      else if st.w - st.r < n ∧ st.eof then
        some (.ok (some ((st.buf.drop st.r).take (st.w - st.r))), st)
      else if st.w - st.r < n then
        some (.error (.bufferFull st.gen ((st.buf.drop st.r).take (st.w - st.r))), st)
      else some (.ok (some ((st.buf.drop st.r).take n)), st)

/-- `peek` entry point. -/
def peekFn (sk : Src) (st : BRSt) (n : Nat) :
    Option (Except RErr (Option (List Nat)) × BRSt) :=
  peekLoop sk n (st.buf.length + 2) st

/-- Embedding of `reset(r)` / `_reset`: rebind the source and clear `eof`.
The source's `_reset` does not touch the cursors or the buffer. -/
def resetFn (st : BRSt) (newSrc : SrcSt) : BRSt :=
  { st with src := newSrc, eof := false }

/-- Embedding of the `BufReader` constructor: sizes below `MIN_BUF_SIZE = 16`
are raised to 16; cursors start at `(0, 0)` with `eof = false`. -/
def mkBufReader (src : SrcSt) (size : Nat) : BRSt :=
  ⟨List.replicate (if size < 16 then 16 else size) 0, 0, 0, false, 0, src⟩

theorem setChunk_length (dst : List Nat) (off : Nat) (src : List Nat)
    (h1 : off ≤ dst.length) (h2 : off + src.length ≤ dst.length) :
    (setChunk dst off src).length = dst.length := by
  rw [setChunk, List.length_append, List.length_append, List.length_take,
    List.length_drop]
  omega

theorem slideBuf_length (buf : List Nat) (r w : Nat) (h1 : r ≤ w)
    (h2 : w ≤ buf.length) : (slideBuf buf r w).length = buf.length := by
  rw [slideBuf, List.length_append, List.length_take, List.length_drop,
    List.length_drop]
  omega

theorem fillLoop_inv (sk : Src) (hsk : SrcBounded sk) :
    ∀ (tries : Nat) (st : BRSt) (e : Except RErr Unit) (st2 : BRSt),
      st.w ≤ st.buf.length → fillLoop sk tries st = (e, st2) →
      st2.r = st.r ∧ st.w ≤ st2.w ∧ st2.w ≤ st2.buf.length ∧
      st2.buf.length = st.buf.length ∧ st2.gen = st.gen := by
  intro tries
  induction tries with
  | zero =>
    intro st e st2 hw h
    rw [fillLoop] at h
    simp only [Prod.mk.injEq] at h
    obtain ⟨rfl, rfl⟩ := h
    exact ⟨rfl, le_refl _, hw, rfl, rfl⟩
  | succ t ih =>
    intro st e st2 hw h
    rw [fillLoop] at h
    cases hg : sk.g st.src.calls (st.buf.length - st.w) with
    | none =>
      simp only [srcRead, hg, Prod.mk.injEq] at h
      obtain ⟨rfl, rfl⟩ := h
      exact ⟨rfl, le_refl _, hw, rfl, rfl⟩
    | some rr =>
      simp only [srcRead, hg] at h
      have hrr : rr ≤ st.buf.length - st.w := hsk _ _ _ hg
      have hbl : (st.src.pending.take (min rr (st.buf.length - st.w))).length ≤
          st.buf.length - st.w := by
        rw [List.length_take]; omega
      have hsc : (setChunk st.buf st.w
          (st.src.pending.take (min rr (st.buf.length - st.w)))).length =
          st.buf.length := by
        apply setChunk_length _ _ _ (by omega) (by omega)
      by_cases hpos : 0 < rr
      · rw [if_pos hpos] at h
        simp only [Prod.mk.injEq] at h
        obtain ⟨rfl, rfl⟩ := h
        refine ⟨rfl, by show st.w ≤ st.w + rr; omega, ?_, hsc, rfl⟩
        show st.w + rr ≤ (setChunk st.buf st.w
          (st.src.pending.take (min rr (st.buf.length - st.w)))).length
        omega
      · rw [if_neg hpos] at h
        have hres := ih { st with
            buf := setChunk st.buf st.w
              (st.src.pending.take (min rr (st.buf.length - st.w))),
            w := st.w + rr,
            src := ⟨st.src.calls + 1,
              st.src.pending.drop (min rr (st.buf.length - st.w))⟩ }
          e st2 (by show st.w + rr ≤ (setChunk _ _ _).length; omega) h
        obtain ⟨h1, h2, h3, h4, h5⟩ := hres
        have h1b : st2.r = st.r := h1
        have h2b : st.w + rr ≤ st2.w := h2
        have h4b : st2.buf.length = (setChunk st.buf st.w
          (st.src.pending.take (min rr (st.buf.length - st.w)))).length := h4
        have h5b : st2.gen = st.gen := h5
        exact ⟨h1b, by omega, h3, by omega, h5b⟩

theorem fillLoop_err (sk : Src) :
    ∀ (tries : Nat) (st : BRSt) (e : RErr) (st2 : BRSt),
      fillLoop sk tries st = (.error e, st2) → e = .noProgress := by
  intro tries
  induction tries with
  | zero =>
    intro st e st2 h
    rw [fillLoop] at h
    simp only [Prod.mk.injEq, Except.error.injEq] at h
    exact h.1.symm
  | succ t ih =>
    intro st e st2 h
    rw [fillLoop] at h
    cases hg : sk.g st.src.calls (st.buf.length - st.w) with
    | none =>
      simp only [srcRead, hg, Prod.mk.injEq] at h
      cases h.1
    | some rr =>
      simp only [srcRead, hg] at h
      by_cases hpos : 0 < rr
      · rw [if_pos hpos] at h
        simp only [Prod.mk.injEq] at h
        cases h.1
      · rw [if_neg hpos] at h
        exact ih _ _ _ h

theorem fillGo_inv (sk : Src) (hsk : SrcBounded sk) (st1 : BRSt)
    (h1 : st1.r ≤ st1.w) (h2 : st1.w ≤ st1.buf.length) :
    ∀ e st2, fillGo sk st1 = (e, st2) →
      st2.r = st1.r ∧ st1.w ≤ st2.w ∧ st2.w ≤ st2.buf.length ∧
      st2.buf.length = st1.buf.length ∧ st2.gen = st1.gen := by
  intro e st2 h
  rw [fillGo] at h
  by_cases hfull : st1.buf.length ≤ st1.w
  · rw [if_pos hfull] at h
    simp only [Prod.mk.injEq] at h
    obtain ⟨rfl, rfl⟩ := h
    exact ⟨rfl, le_refl _, h2, rfl, rfl⟩
  · rw [if_neg hfull] at h
    exact fillLoop_inv sk hsk 100 st1 e st2 h2 h

theorem fillGo_err (sk : Src) (st1 : BRSt) (e : RErr) (st2 : BRSt)
    (h : fillGo sk st1 = (.error e, st2)) :
    e = .fillFullBuffer ∨ e = .noProgress := by
  rw [fillGo] at h
  by_cases hfull : st1.buf.length ≤ st1.w
  · rw [if_pos hfull] at h
    simp only [Prod.mk.injEq, Except.error.injEq] at h
    exact Or.inl h.1.symm
  · rw [if_neg hfull] at h
    exact Or.inr (fillLoop_err sk 100 st1 e st2 h)

theorem fillFn_inv (sk : Src) (hsk : SrcBounded sk) (st : BRSt) (hinv : Inv st) :
    ∀ e st2, fillFn sk st = (e, st2) →
      Inv st2 ∧ st2.buf.length = st.buf.length ∧ st2.gen = st.gen ∧
      st.w - st.r ≤ st2.w - st2.r := by
  intro e st2 h
  obtain ⟨hrw, hwl⟩ := hinv
  rw [fillFn] at h
  by_cases hr : 0 < st.r
  · rw [if_pos hr] at h
    have hsl : (slideBuf st.buf st.r st.w).length = st.buf.length :=
      slideBuf_length st.buf st.r st.w hrw hwl
    have hres := fillGo_inv sk hsk
      { st with buf := slideBuf st.buf st.r st.w, w := st.w - st.r, r := 0 }
      (by show (0 : Nat) ≤ st.w - st.r; omega)
      (by show st.w - st.r ≤ (slideBuf st.buf st.r st.w).length; omega) e st2 h
    obtain ⟨h1, h2, h3, h4, h5⟩ := hres
    have h1b : st2.r = 0 := h1
    have h2b : st.w - st.r ≤ st2.w := h2
    have h4b : st2.buf.length = (slideBuf st.buf st.r st.w).length := h4
    have h5b : st2.gen = st.gen := h5
    exact ⟨⟨by omega, h3⟩, by omega, h5b, by omega⟩
  · rw [if_neg hr] at h
    have hres := fillGo_inv sk hsk st hrw hwl e st2 h
    obtain ⟨h1, h2, h3, h4, h5⟩ := hres
    exact ⟨⟨by omega, h3⟩, h4, h5, by omega⟩

theorem fillFn_err (sk : Src) (st : BRSt) (e : RErr) (st2 : BRSt)
    (h : fillFn sk st = (.error e, st2)) :
    e = .fillFullBuffer ∨ e = .noProgress := by
  rw [fillFn] at h
  exact fillGo_err sk _ e st2 h

theorem readFn_inv (sk : Src) (hsk : SrcBounded sk) (st : BRSt) (hinv : Inv st)
    (plen : Nat) :
    ∀ res bytes st2, readFn sk st plen = (res, bytes, st2) →
      Inv st2 ∧ st2.buf.length = st.buf.length := by
  intro res bytes st2 h
  obtain ⟨hrw, hwl⟩ := hinv
  rw [readFn] at h
  by_cases hp : plen = 0
  · rw [if_pos hp] at h
    simp only [Prod.mk.injEq] at h
    obtain ⟨-, -, rfl⟩ := h
    exact ⟨⟨hrw, hwl⟩, rfl⟩
  · rw [if_neg hp] at h
    by_cases hrw0 : st.r = st.w
    · rw [if_pos hrw0] at h
      by_cases hbig : st.buf.length ≤ plen
      · rw [if_pos hbig] at h
        cases hg : sk.g st.src.calls plen with
        | none =>
          simp only [srcRead, hg, Prod.mk.injEq] at h
          obtain ⟨-, -, rfl⟩ := h
          exact ⟨⟨hrw, hwl⟩, rfl⟩
        | some rr =>
          simp only [srcRead, hg, Prod.mk.injEq] at h
          obtain ⟨-, -, rfl⟩ := h
          exact ⟨⟨hrw, hwl⟩, rfl⟩
      · rw [if_neg hbig] at h
        cases hg : sk.g st.src.calls st.buf.length with
        | none =>
          simp only [srcRead, hg, Prod.mk.injEq] at h
          obtain ⟨-, -, rfl⟩ := h
          exact ⟨⟨by show (0:Nat) ≤ 0; omega, by show (0:Nat) ≤ st.buf.length; omega⟩, rfl⟩
        | some rr =>
          simp only [srcRead, hg] at h
          have hrr : rr ≤ st.buf.length := hsk _ _ _ hg
          have hscl : (setChunk st.buf 0
              (st.src.pending.take (min rr st.buf.length))).length = st.buf.length := by
            apply setChunk_length _ _ _ (by omega)
            have hb : (st.src.pending.take (min rr st.buf.length)).length ≤
                min rr st.buf.length := by
              rw [List.length_take]; omega
            omega
          by_cases hz : rr = 0
          · rw [if_pos hz] at h
            simp only [Prod.mk.injEq] at h
            obtain ⟨-, -, rfl⟩ := h
            exact ⟨⟨by show (0:Nat) ≤ 0; omega, by show (0:Nat) ≤ st.buf.length; omega⟩, rfl⟩
          · rw [if_neg hz] at h
            simp only [Prod.mk.injEq] at h
            obtain ⟨-, -, rfl⟩ := h
            refine ⟨⟨?_, ?_⟩, hscl⟩
            · show min rr plen ≤ rr
              omega
            · show rr ≤ (setChunk st.buf 0
                (st.src.pending.take (min rr st.buf.length))).length
              omega
    · rw [if_neg hrw0] at h
      simp only [Prod.mk.injEq] at h
      obtain ⟨-, -, rfl⟩ := h
      refine ⟨⟨?_, hwl⟩, rfl⟩
      show st.r + min (st.w - st.r) plen ≤ st.w
      omega

theorem readFullLoop_inv (sk : Src) (hsk : SrcBounded sk) :
    ∀ (fuel : Nat) (st : BRSt) (plen got : Nat) (acc : List Nat)
      (res : Except RErr (Option (List Nat))) (st2 : BRSt),
      Inv st → readFullLoop sk fuel st plen got acc = some (res, st2) → Inv st2 := by
  intro fuel
  induction fuel with
  | zero => intro st plen got acc res st2 _ h; cases h
  | succ f ih =>
    intro st plen got acc res st2 hinv h
    rw [readFullLoop] at h
    by_cases hlt : got < plen
    · rw [if_pos hlt] at h
      rcases hr : readFn sk st (plen - got) with ⟨res1, bytes1, st3⟩
      have hst3 := readFn_inv sk hsk st hinv (plen - got) res1 bytes1 st3 hr
      rw [hr] at h
      cases res1 with
      | error e =>
        have h2 : some ((.error e : Except RErr (Option (List Nat))), st3) =
            some (res, st2) := h
        simp only [Option.some.injEq, Prod.mk.injEq] at h2
        obtain ⟨-, rfl⟩ := h2
        exact hst3.1
      | ok o =>
        cases o with
        | none =>
          by_cases hg0 : got = 0
          · have h2 : (if got = 0 then
                some ((.ok none : Except RErr (Option (List Nat))), st3)
                else some (.error (.partialRead acc), st3)) = some (res, st2) := h
            rw [if_pos hg0] at h2
            simp only [Option.some.injEq, Prod.mk.injEq] at h2
            obtain ⟨-, rfl⟩ := h2
            exact hst3.1
          · have h2 : (if got = 0 then
                some ((.ok none : Except RErr (Option (List Nat))), st3)
                else some (.error (.partialRead acc), st3)) = some (res, st2) := h
            rw [if_neg hg0] at h2
            simp only [Option.some.injEq, Prod.mk.injEq] at h2
            obtain ⟨-, rfl⟩ := h2
            exact hst3.1
        | some rr =>
          have h2 : readFullLoop sk f st3 plen (got + rr) (acc ++ bytes1) =
              some (res, st2) := h
          exact ih st3 plen (got + rr) (acc ++ bytes1) res st2 hst3.1 h2
    · rw [if_neg hlt] at h
      simp only [Option.some.injEq, Prod.mk.injEq] at h
      obtain ⟨-, rfl⟩ := h
      exact hinv

theorem readByteLoop_inv (sk : Src) (hsk : SrcBounded sk) :
    ∀ (fuel : Nat) (st : BRSt) (res : Except RErr (Option Nat)) (st2 : BRSt),
      Inv st → readByteLoop sk fuel st = some (res, st2) → Inv st2 := by
  intro fuel
  induction fuel with
  | zero => intro st res st2 _ h; cases h
  | succ f ih =>
    intro st res st2 hinv h
    rw [readByteLoop] at h
    by_cases hrw0 : st.r = st.w
    · rw [if_pos hrw0] at h
      by_cases heof : st.eof = true
      · rw [if_pos heof] at h
        simp only [Option.some.injEq, Prod.mk.injEq] at h
        obtain ⟨-, rfl⟩ := h
        exact hinv
      · rw [if_neg heof] at h
        rcases hf : fillFn sk st with ⟨e1, st3⟩
        have hst3 := fillFn_inv sk hsk st hinv e1 st3 hf
        rw [hf] at h
        cases e1 with
        | error e =>
          have h2 : some ((.error e : Except RErr (Option Nat)), st3) =
              some (res, st2) := h
          simp only [Option.some.injEq, Prod.mk.injEq] at h2
          obtain ⟨-, rfl⟩ := h2
          exact hst3.1
        | ok u =>
          have h2 : readByteLoop sk f st3 = some (res, st2) := h
          exact ih st3 res st2 hst3.1 h2
    · rw [if_neg hrw0] at h
      simp only [Option.some.injEq, Prod.mk.injEq] at h
      obtain ⟨-, rfl⟩ := h
      obtain ⟨hrw, hwl⟩ := hinv
      exact ⟨by show st.r + 1 ≤ st.w; omega, hwl⟩

theorem byteIndexOf_lt (b : Nat) :
    ∀ (l : List Nat) (i : Nat), byteIndexOf l b = some i → i < l.length := by
  intro l
  induction l with
  | nil => intro i h; cases h
  | cons x xs ih =>
    intro i h
    rw [byteIndexOf] at h
    by_cases hx : x = b
    · rw [if_pos hx] at h
      simp only [Option.some.injEq] at h
      subst h
      simp
    · rw [if_neg hx] at h
      rw [Option.map_eq_some'] at h
      obtain ⟨j, hj, rfl⟩ := h
      have := ih j hj
      simp only [List.length_cons]
      omega

theorem readSliceLoop_inv (sk : Src) (hsk : SrcBounded sk) (delim : Nat) :
    ∀ (fuel : Nat) (st : BRSt) (s : Nat)
      (res : Except RErr (Option (List Nat))) (st2 : BRSt),
      Inv st → readSliceLoop sk delim fuel st s = some (res, st2) →
      Inv st2 ∧ st2.buf.length = st.buf.length := by
  intro fuel
  induction fuel with
  | zero => intro st s res st2 _ h; cases h
  | succ f ih =>
    intro st s res st2 hinv h
    obtain ⟨hrw, hwl⟩ := hinv
    rw [readSliceLoop] at h
    cases hidx : byteIndexOf ((st.buf.drop (st.r + s)).take (st.w - (st.r + s))) delim with
    | some i0 =>
      rw [hidx] at h
      have hi0 := byteIndexOf_lt delim _ i0 hidx
      rw [List.length_take] at hi0
      have h2 : some ((.ok (some ((st.buf.drop st.r).take (i0 + s + 1))) :
          Except RErr (Option (List Nat))),
          { st with r := st.r + (i0 + s) + 1 }) = some (res, st2) := h
      simp only [Option.some.injEq, Prod.mk.injEq] at h2
      obtain ⟨-, rfl⟩ := h2
      refine ⟨⟨?_, hwl⟩, rfl⟩
      show st.r + (i0 + s) + 1 ≤ st.w
      omega
    | none =>
      rw [hidx] at h
      by_cases heof : st.eof = true
      · rw [if_pos heof] at h
        by_cases hrw0 : st.r = st.w
        · rw [if_pos hrw0] at h
          simp only [Option.some.injEq, Prod.mk.injEq] at h
          obtain ⟨-, rfl⟩ := h
          exact ⟨⟨hrw, hwl⟩, rfl⟩
        · rw [if_neg hrw0] at h
          simp only [Option.some.injEq, Prod.mk.injEq] at h
          obtain ⟨-, rfl⟩ := h
          exact ⟨⟨by show st.w ≤ st.w; omega, hwl⟩, rfl⟩
      · rw [if_neg heof] at h
        by_cases hfull : st.buf.length ≤ st.w - st.r
        · rw [if_pos hfull] at h
          simp only [Option.some.injEq, Prod.mk.injEq] at h
          obtain ⟨-, rfl⟩ := h
          exact ⟨⟨by show st.w ≤ st.w; omega, hwl⟩, rfl⟩
        · rw [if_neg hfull] at h
          rcases hf : fillFn sk st with ⟨e1, st3⟩
          have hst3 := fillFn_inv sk hsk st ⟨hrw, hwl⟩ e1 st3 hf
          rw [hf] at h
          cases e1 with
          | error e =>
            have h2 : some ((.error e : Except RErr (Option (List Nat))), st3) =
                some (res, st2) := h
            simp only [Option.some.injEq, Prod.mk.injEq] at h2
            obtain ⟨-, rfl⟩ := h2
            exact ⟨hst3.1, hst3.2.1⟩
          | ok u =>
            have h2 : readSliceLoop sk delim f st3 (st.w - st.r) = some (res, st2) := h
            obtain ⟨hi2, hl2⟩ := ih st3 (st.w - st.r) res st2 hst3.1 h2
            exact ⟨hi2, by rw [hl2, hst3.2.1]⟩

theorem peekLoop_inv (sk : Src) (hsk : SrcBounded sk) (n : Nat) :
    ∀ (fuel : Nat) (st : BRSt) (res : Except RErr (Option (List Nat))) (st2 : BRSt),
      Inv st → peekLoop sk n fuel st = some (res, st2) → Inv st2 := by
  intro fuel
  induction fuel with
  | zero => intro st res st2 _ h; cases h
  | succ f ih =>
    intro st res st2 hinv h
    rw [peekLoop] at h
    by_cases hc : st.w - st.r < n ∧ st.w - st.r < st.buf.length ∧ ¬st.eof = true
    · rw [if_pos hc] at h
      rcases hf : fillFn sk st with ⟨e1, st3⟩
      have hst3 := fillFn_inv sk hsk st hinv e1 st3 hf
      rw [hf] at h
      cases e1 with
      | error e =>
        have h2 : some ((.error e : Except RErr (Option (List Nat))), st3) =
            some (res, st2) := h
        simp only [Option.some.injEq, Prod.mk.injEq] at h2
        obtain ⟨-, rfl⟩ := h2
        exact hst3.1
      | ok u =>
        have h2 : peekLoop sk n f st3 = some (res, st2) := h
        exact ih st3 res st2 hst3.1 h2
    · rw [if_neg hc] at h
      by_cases h1 : st.w - st.r = 0 ∧ st.eof = true
      · rw [if_pos h1] at h
        simp only [Option.some.injEq, Prod.mk.injEq] at h
        obtain ⟨-, rfl⟩ := h
        exact hinv
      · rw [if_neg h1] at h
        by_cases h2 : st.w - st.r < n ∧ st.eof = true
        · rw [if_pos h2] at h
          simp only [Option.some.injEq, Prod.mk.injEq] at h
          obtain ⟨-, rfl⟩ := h
          exact hinv
        · rw [if_neg h2] at h
          by_cases h3 : st.w - st.r < n
          · rw [if_pos h3] at h
            simp only [Option.some.injEq, Prod.mk.injEq] at h
            obtain ⟨-, rfl⟩ := h
            exact hinv
          · rw [if_neg h3] at h
            simp only [Option.some.injEq, Prod.mk.injEq] at h
            obtain ⟨-, rfl⟩ := h
            exact hinv

theorem readStringFn_inv (sk : Src) (hsk : SrcBounded sk) (st : BRSt)
    (hinv : Inv st) (ds : List Nat) :
    ∀ res st2, readStringFn sk st ds = some (res, st2) → Inv st2 := by
  intro res st2 h
  rw [readStringFn] at h
  by_cases hd : ds.length = 1
  · rw [if_pos hd] at h
    exact (readSliceLoop_inv sk hsk (ds.headD 0) _ st 0 res st2 hinv h).1
  · rw [if_neg hd] at h
    simp only [Option.some.injEq, Prod.mk.injEq] at h
    obtain ⟨-, rfl⟩ := h
    exact hinv

theorem readLineFn_inv (sk : Src) (hsk : SrcBounded sk) (st : BRSt)
    (hinv : Inv st) :
    ∀ res st2, readLineFn sk st = some (res, st2) → Inv st2 := by
  intro res st2 h
  rw [readLineFn] at h
  rcases hsl : readSliceFn sk st LF with - | ⟨r1, st3⟩
  · rw [hsl] at h; cases h
  · have hst3 := readSliceLoop_inv sk hsk LF _ st 0 r1 st3 hinv hsl
    rw [hsl] at h
    rcases r1 with e1 | o1
    · rcases e1 with ⟨g1, p1⟩ | p1 | - | - | - | -
      · by_cases hc : ¬st3.eof = true ∧ 0 < p1.length ∧ p1.getD (p1.length - 1) 0 = CR
        · have h2 : (if ¬st3.eof = true ∧ 0 < p1.length ∧ p1.getD (p1.length - 1) 0 = CR
              then (if st3.r = 0 then some ((.error .assertion :
                  Except RErr (Option LineRes)), st3)
                else some (.ok (some ⟨p1.take (p1.length - 1), !st3.eof⟩),
                  { st3 with r := st3.r - 1 }))
              else some (.ok (some ⟨p1, !st3.eof⟩), st3)) = some (res, st2) := h
          rw [if_pos hc] at h2
          by_cases hr0 : st3.r = 0
          · rw [if_pos hr0] at h2
            simp only [Option.some.injEq, Prod.mk.injEq] at h2
            obtain ⟨-, rfl⟩ := h2
            exact hst3.1
          · rw [if_neg hr0] at h2
            simp only [Option.some.injEq, Prod.mk.injEq] at h2
            obtain ⟨-, rfl⟩ := h2
            obtain ⟨ha, hb⟩ := hst3.1
            exact ⟨by show st3.r - 1 ≤ st3.w; omega, hb⟩
        · have h2 : (if ¬st3.eof = true ∧ 0 < p1.length ∧ p1.getD (p1.length - 1) 0 = CR
              then (if st3.r = 0 then some ((.error .assertion :
                  Except RErr (Option LineRes)), st3)
                else some (.ok (some ⟨p1.take (p1.length - 1), !st3.eof⟩),
                  { st3 with r := st3.r - 1 }))
              else some (.ok (some ⟨p1, !st3.eof⟩), st3)) = some (res, st2) := h
          rw [if_neg hc] at h2
          simp only [Option.some.injEq, Prod.mk.injEq] at h2
          obtain ⟨-, rfl⟩ := h2
          exact hst3.1
      all_goals {
        have h2 : some ((.error .assertion : Except RErr (Option LineRes)), st3) =
            some (res, st2) := h
        simp only [Option.some.injEq, Prod.mk.injEq] at h2
        obtain ⟨-, rfl⟩ := h2
        exact hst3.1
      }
    · rcases o1 with - | line
      · have h2 : some ((.ok none : Except RErr (Option LineRes)), st3) =
            some (res, st2) := h
        simp only [Option.some.injEq, Prod.mk.injEq] at h2
        obtain ⟨-, rfl⟩ := h2
        exact hst3.1
      · have h2 : (if line.length = 0 then
            some ((.ok (some ⟨line, false⟩) : Except RErr (Option LineRes)), st3)
            else if line.getD (line.length - 1) 0 = LF then
              if 1 < line.length ∧ line.getD (line.length - 2) 0 = CR then
                some (.ok (some ⟨line.take (line.length - 2), false⟩), st3)
              else some (.ok (some ⟨line.take (line.length - 1), false⟩), st3)
            else some (.ok (some ⟨line, false⟩), st3)) = some (res, st2) := h
        have hfin : st2 = st3 := by
          by_cases ha : line.length = 0
          · rw [if_pos ha] at h2
            simp only [Option.some.injEq, Prod.mk.injEq] at h2
            exact h2.2.symm
          · rw [if_neg ha] at h2
            by_cases hb : line.getD (line.length - 1) 0 = LF
            · rw [if_pos hb] at h2
              by_cases hcc : 1 < line.length ∧ line.getD (line.length - 2) 0 = CR
              · rw [if_pos hcc] at h2
                simp only [Option.some.injEq, Prod.mk.injEq] at h2
                exact h2.2.symm
              · rw [if_neg hcc] at h2
                simp only [Option.some.injEq, Prod.mk.injEq] at h2
                exact h2.2.symm
            · rw [if_neg hb] at h2
              simp only [Option.some.injEq, Prod.mk.injEq] at h2
              exact h2.2.symm
        rw [hfin]
        exact hst3.1

/-- C6: for every `BufReader` over a source whose read operation returns
either the end-of-stream sentinel or a count `rr` with `0 ≤ rr ≤ len`, every
operation — `read`, `readFull`, `readByte`, `readSlice`, `readString`,
`readLine`, `peek` and `reset` — preserves the cursor invariant
`0 ≤ r ≤ w ≤ capacity`. -/
theorem bufReader_cursor_invariant (sk : Src) (st : BRSt)
    (hsk : SrcBounded sk) (hinv : Inv st) :
    (∀ plen res bytes st2, readFn sk st plen = (res, bytes, st2) → Inv st2) ∧
    (∀ fuel plen res st2, readFullFn sk fuel st plen = some (res, st2) → Inv st2) ∧
    (∀ res st2, readByteFn sk st = some (res, st2) → Inv st2) ∧
    (∀ delim res st2, readSliceFn sk st delim = some (res, st2) → Inv st2) ∧
    (∀ ds res st2, readStringFn sk st ds = some (res, st2) → Inv st2) ∧
    (∀ res st2, readLineFn sk st = some (res, st2) → Inv st2) ∧
    (∀ n res st2, peekFn sk st n = some (res, st2) → Inv st2) ∧
    (∀ newSrc, Inv (resetFn st newSrc)) := by
  refine ⟨?_, ?_, ?_, ?_, ?_, ?_, ?_, ?_⟩
  · intro plen res bytes st2 h
    exact (readFn_inv sk hsk st hinv plen res bytes st2 h).1
  · intro fuel plen res st2 h
    exact readFullLoop_inv sk hsk fuel st plen 0 [] res st2 hinv h
  · intro res st2 h
    exact readByteLoop_inv sk hsk 4 st res st2 hinv h
  · intro delim res st2 h
    exact (readSliceLoop_inv sk hsk delim _ st 0 res st2 hinv h).1
  · intro ds res st2 h
    exact readStringFn_inv sk hsk st hinv ds res st2 h
  · intro res st2 h
    exact readLineFn_inv sk hsk st hinv res st2 h
  · intro n res st2 h
    exact peekLoop_inv sk hsk n _ st res st2 hinv h
  · intro newSrc
    exact hinv

/-- Witness for C6: a zero-yielding bounded source over a fresh reader; the
invariant of the state after a concrete `read` call is derived through the
theorem. -/
theorem bufReader_cursor_invariant_witness :
    SrcBounded ⟨fun _ _ => some 0⟩ ∧ Inv (mkBufReader ⟨0, []⟩ 16) ∧
      Inv (readFn ⟨fun _ _ => some 0⟩ (mkBufReader ⟨0, []⟩ 16) 5).2.2 := by
  have hsk : SrcBounded ⟨fun _ _ => some 0⟩ := by
    intro k len rr h
    simp only [Option.some.injEq] at h
    omega
  have hinv : Inv (mkBufReader ⟨0, []⟩ 16) := by
    constructor <;> simp [mkBufReader]
  exact ⟨hsk, hinv,
    (bufReader_cursor_invariant ⟨fun _ _ => some 0⟩ (mkBufReader ⟨0, []⟩ 16) hsk hinv).1
      5 _ _ _ rfl⟩

theorem readSliceLoop_bufferFull (sk : Src) (hsk : SrcBounded sk) (delim : Nat) :
    ∀ (fuel : Nat) (st : BRSt) (s g : Nat) (p : List Nat) (st2 : BRSt),
      Inv st →
      readSliceLoop sk delim fuel st s = some (.error (.bufferFull g p), st2) →
      p.length = st.buf.length ∧ p = st2.buf ∧ st2.gen = g + 1 := by
  intro fuel
  induction fuel with
  | zero => intro st s g p st2 _ h; cases h
  | succ f ih =>
    intro st s g p st2 hinv h
    obtain ⟨hrw, hwl⟩ := hinv
    rw [readSliceLoop] at h
    cases hidx : byteIndexOf ((st.buf.drop (st.r + s)).take (st.w - (st.r + s))) delim with
    | some i0 =>
      rw [hidx] at h
      have h2 : some ((.ok (some ((st.buf.drop st.r).take (i0 + s + 1))) :
          Except RErr (Option (List Nat))), { st with r := st.r + (i0 + s) + 1 }) =
          some (.error (.bufferFull g p), st2) := h
      simp at h2
    | none =>
      rw [hidx] at h
      by_cases heof : st.eof = true
      · rw [if_pos heof] at h
        by_cases hrw0 : st.r = st.w
        · rw [if_pos hrw0] at h
          have h2 : some ((.ok none : Except RErr (Option (List Nat))), st) =
              some (.error (.bufferFull g p), st2) := h
          simp at h2
        · rw [if_neg hrw0] at h
          have h2 : some ((.ok (some ((st.buf.drop st.r).take (st.w - st.r))) :
              Except RErr (Option (List Nat))), { st with r := st.w }) =
              some (.error (.bufferFull g p), st2) := h
          simp at h2
      · rw [if_neg heof] at h
        by_cases hfull : st.buf.length ≤ st.w - st.r
        · rw [if_pos hfull] at h
          have h2 : some ((.error (.bufferFull st.gen st.buf) :
              Except RErr (Option (List Nat))),
              { st with r := st.w, gen := st.gen + 1 }) =
              some (.error (.bufferFull g p), st2) := h
          simp only [Option.some.injEq, Prod.mk.injEq, Except.error.injEq,
            RErr.bufferFull.injEq] at h2
          obtain ⟨⟨rfl, rfl⟩, rfl⟩ := h2
          exact ⟨rfl, rfl, rfl⟩
        · rw [if_neg hfull] at h
          rcases hfe : fillFn sk st with ⟨e1, st3⟩
          have hst3 := fillFn_inv sk hsk st ⟨hrw, hwl⟩ e1 st3 hfe
          rw [hfe] at h
          cases e1 with
          | error e =>
            have h2 : some ((.error e : Except RErr (Option (List Nat))), st3) =
                some (.error (.bufferFull g p), st2) := h
            simp only [Option.some.injEq, Prod.mk.injEq, Except.error.injEq] at h2
            obtain ⟨rfl, rfl⟩ := h2
            rcases fillFn_err sk st _ st3 hfe with h3 | h3 <;> cases h3
          | ok u =>
            have h2 : readSliceLoop sk delim f st3 (st.w - st.r) =
                some (.error (.bufferFull g p), st2) := h
            obtain ⟨ha, hb, hc⟩ := ih st3 (st.w - st.r) g p st2 hst3.1 h2
            exact ⟨by rw [ha, hst3.2.1], hb, hc⟩

/-- C5: whenever `readSlice` fails with `BufferFullError`, the payload is the
entire internal buffer — its length equals the reader's capacity — and the
reader has replaced `this.buf` with a fresh copy before throwing: the payload
and the new buffer hold the same bytes but the buffer's allocation generation
has moved past the payload's, so no subsequent operation (which only ever
writes through `this.buf`) can mutate the thrown payload. -/
theorem readSlice_bufferFull (sk : Src) (st : BRSt) (delim g : Nat)
    (p : List Nat) (st2 : BRSt) (hsk : SrcBounded sk) (hinv : Inv st)
    (h : readSliceFn sk st delim = some (.error (.bufferFull g p), st2)) :
    p.length = st.buf.length ∧ p = st2.buf ∧ st2.gen = g + 1 :=
  readSliceLoop_bufferFull sk hsk delim _ st 0 g p st2 hinv h

/-- Witness for C5: the spec's scenario — a capacity-16 reader (minimum size)
fed twenty `'a'` bytes before the newline fails with `BufferFullError` whose
payload is the sixteen buffered bytes. -/
theorem readSlice_bufferFull_witness :
    SrcBounded ⟨fun k len => if k = 0 then some (if len < 16 then len else 16) else none⟩ ∧
    Inv (mkBufReader ⟨0, List.replicate 20 97 ++ [10]⟩ 16) ∧
    readSliceFn ⟨fun k len => if k = 0 then some (if len < 16 then len else 16) else none⟩
        (mkBufReader ⟨0, List.replicate 20 97 ++ [10]⟩ 16) 10 =
      some (.error (.bufferFull 0 (List.replicate 16 97)),
        ⟨List.replicate 16 97, 16, 16, false, 1, ⟨1, [97, 97, 97, 97, 10]⟩⟩) ∧
    ((List.replicate 16 97 : List Nat).length =
        (mkBufReader ⟨0, List.replicate 20 97 ++ [10]⟩ 16).buf.length ∧
      (List.replicate 16 97 : List Nat) =
        (⟨List.replicate 16 97, 16, 16, false, 1,
          ⟨1, [97, 97, 97, 97, 10]⟩⟩ : BRSt).buf ∧
      (⟨List.replicate 16 97, 16, 16, false, 1,
        ⟨1, [97, 97, 97, 97, 10]⟩⟩ : BRSt).gen = 0 + 1) := by
  have hsk : SrcBounded ⟨fun k len => if k = 0 then some (if len < 16 then len else 16) else none⟩ := by
    intro k len rr h
    by_cases hk : k = 0
    · subst hk
      have h2 : (if (0 : Nat) = 0 then some (if len < 16 then len else 16)
          else none) = some rr := h
      rw [if_pos rfl] at h2
      simp only [Option.some.injEq] at h2
      by_cases hlen : len < 16
      · rw [if_pos hlen] at h2; omega
      · rw [if_neg hlen] at h2; omega
    · have h2 : (if k = 0 then some (if len < 16 then len else 16)
          else none) = some rr := h
      rw [if_neg hk] at h2
      cases h2
  have hinv : Inv (mkBufReader ⟨0, List.replicate 20 97 ++ [10]⟩ 16) := by
    constructor <;> simp [mkBufReader]
  have hrun : readSliceFn ⟨fun k len => if k = 0 then some (if len < 16 then len else 16) else none⟩
      (mkBufReader ⟨0, List.replicate 20 97 ++ [10]⟩ 16) 10 =
      some (.error (.bufferFull 0 (List.replicate 16 97)),
        ⟨List.replicate 16 97, 16, 16, false, 1, ⟨1, [97, 97, 97, 97, 10]⟩⟩) := by
    rfl
  exact ⟨hsk, hinv, hrun, readSlice_bufferFull _ _ _ _ _ _ hsk hinv hrun⟩

theorem getLast?_eq_getD (l : List Nat) (h : l ≠ []) :
    l.getLast? = some (l.getD (l.length - 1) 0) := by
  have hpos : 0 < l.length := List.length_pos.mpr h
  have hlt : l.length - 1 < l.length := by omega
  rw [List.getLast?_eq_getElem? l, List.getD_eq_getElem?_getD,
    List.getElem?_eq_getElem hlt]
  rfl

theorem getD_take (l : List Nat) (n i : Nat) (h : i < n) :
    (l.take n).getD i 0 = l.getD i 0 := by
  rw [List.getD_eq_getElem?_getD, List.getD_eq_getElem?_getD, List.getElem?_take]
  rw [if_pos h]

theorem dropLast_dropLast (l : List Nat) :
    l.dropLast.dropLast = l.take (l.length - 2) := by
  rw [List.dropLast_eq_take, List.dropLast_eq_take, List.length_take, List.take_take]
  congr 1
  omega

theorem dropLast_getLast?_iff (l : List Nat) (b : Nat) :
    l.dropLast.getLast? = some b ↔ (1 < l.length ∧ l.getD (l.length - 2) 0 = b) := by
  constructor
  · intro h
    have hne2 : l.dropLast ≠ [] := by
      intro hc; rw [hc] at h; cases h
    have hdlen : l.dropLast.length = l.length - 1 := List.length_dropLast l
    have hpos : 0 < l.dropLast.length := List.length_pos.mpr hne2
    have hlen : 1 < l.length := by omega
    refine ⟨hlen, ?_⟩
    rw [getLast?_eq_getD _ hne2] at h
    simp only [Option.some.injEq] at h
    rw [hdlen, List.dropLast_eq_take, getD_take _ _ _ (by omega)] at h
    have he : l.length - 1 - 1 = l.length - 2 := by omega
    rw [he] at h
    exact h
  · rintro ⟨hlen, hb⟩
    have hdlen : l.dropLast.length = l.length - 1 := List.length_dropLast l
    have hne2 : l.dropLast ≠ [] := by
      intro hc
      have hc2 := congrArg List.length hc
      rw [hdlen] at hc2
      simp only [List.length_nil] at hc2
      omega
    rw [getLast?_eq_getD _ hne2, hdlen]
    congr 1
    rw [List.dropLast_eq_take, getD_take _ _ _ (by omega)]
    have he : l.length - 1 - 1 = l.length - 2 := by omega
    rw [he, hb]

/-- What `readLine` does to a complete line, in the spec's phrasing: strip one
trailing LF, and additionally one trailing CR immediately preceding that
LF. -/
def stripEol (l : List Nat) : List Nat :=
  if l.getLast? = some LF then
    if l.dropLast.getLast? = some CR then l.dropLast.dropLast else l.dropLast
  else l

/-- The source of the C7 scenario: delivers all nine bytes of
`"abc\r\ndef\n"` on the first read and signals end-of-stream thereafter. -/
def lineSrc : Src := ⟨fun k _ => if k = 0 then some 9 else none⟩

/-- A fresh minimum-capacity reader over `"abc\r\ndef\n"`. -/
def lineReader : BRSt := mkBufReader ⟨0, [97, 98, 99, 13, 10, 100, 101, 102, 10]⟩ 16

/-- C7: whenever `readSlice(LF)` returns a complete slice, `readLine` returns
that slice with one trailing LF stripped — and additionally one trailing CR
immediately preceding that LF — and `more = false`; in particular three
successive `readLine()` calls over a source containing `"abc\r\ndef\n"` yield
`{line: "abc", more: false}`, then `{line: "def", more: false}`, then
`null`. -/
theorem readLine_crlf :
    (∀ (sk : Src) (st : BRSt) (sl : List Nat) (st2 : BRSt),
      readSliceFn sk st LF = some (.ok (some sl), st2) →
      readLineFn sk st = some (.ok (some ⟨stripEol sl, false⟩), st2)) ∧
    (∃ stA stB stC,
      readLineFn lineSrc lineReader = some (.ok (some ⟨[97, 98, 99], false⟩), stA) ∧
      readLineFn lineSrc stA = some (.ok (some ⟨[100, 101, 102], false⟩), stB) ∧
      readLineFn lineSrc stB = some (.ok none, stC)) := by
  constructor
  · intro sk st sl st2 h
    have hred : readLineFn sk st =
        (if sl.length = 0 then
          some ((.ok (some ⟨sl, false⟩) : Except RErr (Option LineRes)), st2)
        else if sl.getD (sl.length - 1) 0 = LF then
          if 1 < sl.length ∧ sl.getD (sl.length - 2) 0 = CR then
            some (.ok (some ⟨sl.take (sl.length - 2), false⟩), st2)
          else some (.ok (some ⟨sl.take (sl.length - 1), false⟩), st2)
        else some (.ok (some ⟨sl, false⟩), st2)) := by
      rw [readLineFn, h]
    rw [hred]
    by_cases h0 : sl.length = 0
    · rw [if_pos h0]
      have hnil : sl = [] := List.length_eq_zero.mp h0
      subst hnil
      rfl
    · rw [if_neg h0]
      have hne : sl ≠ [] := by
        intro hc; subst hc; simp at h0
      by_cases hlf : sl.getD (sl.length - 1) 0 = LF
      · rw [if_pos hlf]
        have hlast : sl.getLast? = some LF := by
          rw [getLast?_eq_getD sl hne, hlf]
        by_cases hcr : 1 < sl.length ∧ sl.getD (sl.length - 2) 0 = CR
        · rw [if_pos hcr]
          have hcr2 : sl.dropLast.getLast? = some CR :=
            (dropLast_getLast?_iff sl CR).mpr hcr
          rw [stripEol, if_pos hlast, if_pos hcr2, dropLast_dropLast]
        · rw [if_neg hcr]
          have hcr2 : ¬sl.dropLast.getLast? = some CR := by
            intro hc
            exact hcr ((dropLast_getLast?_iff sl CR).mp hc)
          rw [stripEol, if_pos hlast, if_neg hcr2, List.dropLast_eq_take]
      · rw [if_neg hlf]
        have hlast : ¬sl.getLast? = some LF := by
          rw [getLast?_eq_getD sl hne]
          intro hc
          simp only [Option.some.injEq] at hc
          exact hlf hc
        rw [stripEol, if_neg hlast]
  · refine ⟨⟨[97, 98, 99, 13, 10, 100, 101, 102, 10, 0, 0, 0, 0, 0, 0, 0], 5, 9,
        false, 0, ⟨1, []⟩⟩,
      ⟨[97, 98, 99, 13, 10, 100, 101, 102, 10, 0, 0, 0, 0, 0, 0, 0], 9, 9,
        false, 0, ⟨1, []⟩⟩,
      ⟨[97, 98, 99, 13, 10, 100, 101, 102, 10, 0, 0, 0, 0, 0, 0, 0], 0, 0,
        true, 0, ⟨2, []⟩⟩, ?_, ?_, ?_⟩ <;> rfl

/-- Witness for C7: the strip law applied to the scenario's first
`readSlice(LF)` call, whose slice is `"abc\r\n"`. -/
theorem readLine_crlf_witness :
    readSliceFn lineSrc lineReader LF =
      some (.ok (some [97, 98, 99, 13, 10]),
        ⟨[97, 98, 99, 13, 10, 100, 101, 102, 10, 0, 0, 0, 0, 0, 0, 0], 5, 9,
          false, 0, ⟨1, []⟩⟩) ∧
    readLineFn lineSrc lineReader =
      some (.ok (some ⟨stripEol [97, 98, 99, 13, 10], false⟩),
        ⟨[97, 98, 99, 13, 10, 100, 101, 102, 10, 0, 0, 0, 0, 0, 0, 0], 5, 9,
          false, 0, ⟨1, []⟩⟩) :=
  ⟨by rfl, readLine_crlf.1 lineSrc lineReader [97, 98, 99, 13, 10] _ (by rfl)⟩

end DenoStd
